import Mathlib

/-!
# tree-structure-recreator: the listing parser of `tree-builder.go`

A shallow embedding of `checkLineLevel`, `parseTree` and `createStructure`
and the properties the specification states about them.

Modelling conventions.

* A Go `string` is a `List Char` (`Str`).  `strings.HasPrefix`,
  `strings.TrimPrefix`, `strings.Contains`, `strings.Index` and
  `strings.Split` are modelled character-wise; on valid UTF-8 text this is
  the byte-wise behaviour of the Go library, because UTF-8 is
  self-synchronising.
* A Go `int` level is an `Int`.  `level+1` is only evaluated after a line
  classified at `level`, so `level` is then a marker count bounded by the
  length of a line and the addition cannot wrap.
* `map[string]*TreeNode` is an association list in insertion order;
  assigning to a key that is present replaces the stored child in place.
  Every node is assumed to carry an allocated map, as all nodes made by
  `main` and `parseTree` do.
* `parseTree` mutates `root` and returns the unconsumed lines; the model
  returns both.  A `panic` is the outcome `panicked msg`.
* Loops and the recursion run on a fuel counter that is initialised with
  the length of the input; running out of fuel is a separate, explicit
  outcome, and is shown never to happen.
* `createStructure` takes the operations of package `os` as a parameter over
  a state of the filesystem and returns the new state with the error.
-/

namespace TreeBuilder

/-- Go strings as character sequences. -/
abbrev Str := List Char

/-- Go `strings.HasPrefix(s, p)`. -/
def hasPrefix (s p : Str) : Bool := p.isPrefixOf s

/-- Go `strings.TrimPrefix(s, p)`: `s` without the leading `p`, or `s`
unchanged when `s` does not start with `p`. -/
def trimPrefix (s p : Str) : Str := if hasPrefix s p then s.drop p.length else s

/-- Go `strings.Index(s, sep)`: position of the first occurrence of `sep`
in `s`, `none` standing for `-1`. -/
def index : Str → Str → Option Nat
  | [], sep => if hasPrefix [] sep then some 0 else none
  | c :: t, sep =>
    if hasPrefix (c :: t) sep then some 0 else (index t sep).map (· + 1)

/-- Go `strings.Contains(s, sep)`, which is `Index(s, sep) >= 0`. -/
def contains (s sep : Str) : Bool := (index s sep).isSome

/-- The loop of Go `strings.genSplit` for a non-empty separator: cut at the
first occurrence, continue behind it; `n` bounds the number of cuts. -/
def splitLoop : Nat → Str → Str → List Str
  | 0, s, _ => [s]
  | n + 1, s, sep =>
    match index s sep with
    | none => [s]
    | some m => s.take m :: splitLoop n (s.drop (m + sep.length)) sep

/-- Go `strings.Split(s, sep)` for a non-empty separator.  The library caps
the number of pieces at `len(s)+1`, so the loop makes at most `len(s)` cuts. -/
def split (s sep : Str) : List Str := splitLoop s.length s sep

/-- The indentation marker `"│   "`. -/
def markerBar : Str := "│   ".toList

/-- The indentation marker `"    "`. -/
def markerBlank : Str := "    ".toList

/-- The connector `"├── "`. -/
def connBranch : Str := "├── ".toList

/-- The connector `"└── "`. -/
def connLast : Str := "└── ".toList

/-- The separator `" -> "` of a symlink entry. -/
def arrow : Str := " -> ".toList

/-- The Go struct `Symlink`. -/
structure Symlink where
  New : Str
  Old : Str
deriving DecidableEq

/-- The Go struct `TreeNode`. -/
inductive TreeNode where
  | mk (Directories : List (Str × TreeNode)) (Files : List Str)
      (Symlinks : List Symlink)

namespace TreeNode

/-- Field `Directories`. -/
def Directories : TreeNode → List (Str × TreeNode)
  | mk d _ _ => d

/-- Field `Files`. -/
def Files : TreeNode → List Str
  | mk _ f _ => f

/-- Field `Symlinks`. -/
def Symlinks : TreeNode → List Symlink
  | mk _ _ s => s

/-- A node with no entries: `&TreeNode{Directories: make(...), Files: []string{}}`. -/
def empty : TreeNode := mk [] [] []

end TreeNode

instance : Inhabited TreeNode := ⟨TreeNode.empty⟩

/-- Map assignment `m[k] = v` on an association list. -/
def mapSet : List (Str × TreeNode) → Str → TreeNode → List (Str × TreeNode)
  | [], k, v => [(k, v)]
  | (k', v') :: rest, k, v =>
    if k' = k then (k, v) :: rest else (k', v') :: mapSet rest k v

/-- Map lookup `m[k]`. -/
def mapGet : List (Str × TreeNode) → Str → Option TreeNode
  | [], _ => none
  | (k', v') :: rest, k => if k' = k then some v' else mapGet rest k

/-- The statement `root.Symlinks = append(root.Symlinks, s)`. -/
def addSymlink (root : TreeNode) (s : Symlink) : TreeNode :=
  .mk root.Directories root.Files (root.Symlinks ++ [s])

/-- The statement `root.Directories[name] = branch`. -/
def setDirectory (root : TreeNode) (name : Str) (branch : TreeNode) : TreeNode :=
  .mk (mapSet root.Directories name branch) root.Files root.Symlinks

/-- The statement `root.Files = append(root.Files, name)`. -/
def addFile (root : TreeNode) (name : Str) : TreeNode :=
  .mk root.Directories (root.Files ++ [name]) root.Symlinks

/-- The loop of `checkLineLevel`: strips indentation markers from the front
of `line` and counts them.  `none` means the fuel ran out while the line was
still non-empty. -/
def checkLineLevelLoop : Nat → Str → Nat → Option (Str × Nat)
  | 0, line, prefixCount =>
    if line.length > 0 then none else some (line, prefixCount)
  | fuel + 1, line, prefixCount =>
    if line.length > 0 then
      if hasPrefix line markerBar then
        checkLineLevelLoop fuel (trimPrefix line markerBar) (prefixCount + 1)
      else if hasPrefix line markerBlank then
        checkLineLevelLoop fuel (trimPrefix line markerBlank) (prefixCount + 1)
      else some (line, prefixCount)
    else some (line, prefixCount)

/-- Go `checkLineLevel(line, level)`: the line without its leading
indentation markers, and whether their number equals `level`. -/
def checkLineLevel (line : Str) (level : Int) : Str × Bool :=
  match checkLineLevelLoop line.length line 0 with
  | some (rest, prefixCount) => (rest, decide ((prefixCount : Int) = level))
  | none => (line, false)

/-- What a call of `parseTree` ends in. -/
inductive Outcome where
  | returned (lines : List Str) (root : TreeNode)
  | panicked (msg : Str)
  | outOfFuel

/-- The panic message of a line without connector. -/
def notAnElement (strippedLine : Str) : Str := "Not an element: ".toList ++ strippedLine

/-- The panic message of a symlink entry that does not split in two. -/
def symlinkError (filename : Str) : Str :=
  "Unexpected error parsing symlink: ".toList ++ filename

/-- Lines 39-46 of `parseTree`: the text behind the connector, `none` where
the source panics because the line starts with neither connector. -/
def entryName (strippedLine : Str) : Option Str :=
  if hasPrefix strippedLine connBranch then some (trimPrefix strippedLine connBranch)
  else if hasPrefix strippedLine connLast then some (trimPrefix strippedLine connLast)
  else none

/-- Lines 33-37 of `parseTree`: the one-line lookahead `isDirectory`. -/
def lookahead (lines : List Str) (level : Int) : Bool :=
  match lines with
  | [] => false
  | next :: _ => (checkLineLevel next (level + 1)).2

/-- The body of `parseTree` on a fuel counter: one unit per loop iteration
and per nesting level. -/
def parseTreeLoop : Nat → List Str → TreeNode → Int → Outcome
  | _, [], root, _ => .returned [] root
  | 0, _ :: _, _, _ => .outOfFuel
  | fuel + 1, line :: lines, root, level =>
    let (strippedLine, hasLevel) := checkLineLevel line level
    if !hasLevel then .returned (line :: lines) root
    else
      let isDirectory := lookahead lines level
      match entryName strippedLine with
      | none => .panicked (notAnElement strippedLine)
      | some filename =>
        if contains filename arrow then
          match split filename arrow with
          | [new, old] => parseTreeLoop fuel lines (addSymlink root ⟨new, old⟩) level
          | _ => .panicked (symlinkError filename)
        else if isDirectory then
          match parseTreeLoop fuel lines TreeNode.empty (level + 1) with
          | .returned lines' branch =>
            parseTreeLoop fuel lines' (setDirectory root filename branch) level
          | other => other
        else parseTreeLoop fuel lines (addFile root filename) level

/-- Go `parseTree(lines, root, level)`. -/
def parseTree (lines : List Str) (root : TreeNode) (level : Int) : Outcome :=
  parseTreeLoop lines.length lines root level

/-! ## Vocabulary of the properties -/

/-- One of the two indentation markers. -/
def IsMarker (m : Str) : Prop := m = markerBar ∨ m = markerBlank

/-- The text begins with neither indentation marker. -/
def NoMarkerStart (s : Str) : Prop :=
  hasPrefix s markerBar = false ∧ hasPrefix s markerBlank = false

/-- The number of leading indentation markers `checkLineLevel` counts. -/
def indentOf (line : Str) : Nat :=
  match checkLineLevelLoop line.length line 0 with
  | some (_, prefixCount) => prefixCount
  | none => 0

/-- The text `checkLineLevel` leaves behind the indentation markers. -/
def stripped (line : Str) : Str := (checkLineLevel line 0).1

/-- The separator `sep` stands at position `i` of `s`. -/
def OccursAt (s sep : Str) (i : Nat) : Prop := hasPrefix (s.drop i) sep = true

instance (m : Str) : Decidable (IsMarker m) := by
  unfold IsMarker; infer_instance

instance (s : Str) : Decidable (NoMarkerStart s) := by
  unfold NoMarkerStart; infer_instance

instance (s sep : Str) (i : Nat) : Decidable (OccursAt s sep i) := by
  unfold OccursAt; infer_instance

/-- How `parseTree` treats the first line of its input at a level. -/
inductive LineKind where
  | stop
  | noConnector
  | badSymlink (filename : Str)
  | symlink (new old : Str)
  | entry (filename : Str)

/-- The decisions of lines 27-58 of `parseTree` on one line: whether it
belongs to the level, whether it has a connector, whether it is a symlink. -/
def lineKind (line : Str) (level : Int) : LineKind :=
  if (checkLineLevel line level).2 = false then .stop
  else
    match entryName (checkLineLevel line level).1 with
    | none => .noConnector
    | some filename =>
      if contains filename arrow then
        match split filename arrow with
        | [new, old] => .symlink new old
        | _ => .badSymlink filename
      else .entry filename

/-- Sequencing of outcomes: continue with `k` after a return, pass on a
panic or an exhausted fuel counter. -/
def Outcome.andThen (o : Outcome) (k : List Str → TreeNode → Outcome) : Outcome :=
  match o with
  | .returned lines root => k lines root
  | other => other

/-- The lines `l` and `l'` are equal, or both are the same indentation
markers, then a connector, then the same text, one with `"├── "` and the
other with `"└── "`. -/
def ConnSwap (l l' : Str) : Prop :=
  l = l' ∨ ∃ (ms : List Str) (t : Str), (∀ m ∈ ms, IsMarker m) ∧
    ((l = ms.flatten ++ connBranch ++ t ∧ l' = ms.flatten ++ connLast ++ t) ∨
      (l = ms.flatten ++ connLast ++ t ∧ l' = ms.flatten ++ connBranch ++ t))

/-- Two calls end alike: both return, with equal nodes and leftovers related
by `R`, or both panic with the same message. -/
def Outcome.Alike (R : List Str → List Str → Prop) (o o' : Outcome) : Prop :=
  match o, o' with
  | .returned r n, .returned r' n' => n = n' ∧ R r r'
  | .panicked m, .panicked m' => m = m'
  | .outOfFuel, .outOfFuel => True
  | _, _ => False

/-! ### The listing grammar

The listing of a node, as section 6 of the specification describes it and
as the `tree` command prints it: one line per entry, made of one indentation
marker per ancestor level, a connector, and the entry text; the entries of
a directory directly follow its own line.  Directories are listed first,
then files, then symlinks, the order in which `createStructure` visits
them. -/

/-- One entry line: the indentation, `"└── "` for the last entry of its
directory and `"├── "` otherwise, then the text. -/
def entryLine (indent : Str) (isLast : Bool) (text : Str) : Str :=
  indent ++ (if isLast then connLast else connBranch) ++ text

/-- The indentation of the entries of a directory: `"    "` is added below
a last entry, `"│   "` below any other. -/
def childIndent (indent : Str) (isLast : Bool) : Str :=
  indent ++ (if isLast then markerBlank else markerBar)

/-- The lines of entries without children; `more` tells that further
entries of the same directory follow them. -/
def leafLines (indent : Str) : List Str → Bool → List Str
  | [], _ => []
  | text :: rest, more =>
    entryLine indent (rest.isEmpty && !more) text :: leafLines indent rest more

/-- The text of a symlink entry, `New -> Old`. -/
def symlinkText (s : Symlink) : Str := s.New ++ arrow ++ s.Old

mutual
/-- The listing of the entries of a node below the indentation `indent`. -/
def serialize (indent : Str) : TreeNode → List Str
  | .mk dirs files links =>
    serializeDirs indent dirs (!files.isEmpty || !links.isEmpty)
      ++ leafLines indent files (!links.isEmpty)
      ++ leafLines indent (links.map symlinkText) false
/-- The listing of directories, each followed by the listing of its node. -/
def serializeDirs (indent : Str) : List (Str × TreeNode) → Bool → List Str
  | [], _ => []
  | (name, child) :: rest, more =>
    entryLine indent (rest.isEmpty && !more) name
      :: (serialize (childIndent indent (rest.isEmpty && !more)) child
        ++ serializeDirs indent rest more)
end

/-- The node holds at least one entry. -/
def TreeNode.HasEntry (t : TreeNode) : Prop :=
  t.Directories ≠ [] ∨ t.Files ≠ [] ∨ t.Symlinks ≠ []

/-- The text `New -> Old` of the symlink holds the separator at one
position only. -/
def UniqueArrow (s : Symlink) : Prop :=
  ∀ i, OccursAt (symlinkText s) arrow i → i = s.New.length

mutual
/-- The trees of the round-trip property: the keys of every `Directories`
map are distinct, every subdirectory has an entry, no file or directory
name contains `" -> "`, and every symlink text holds it exactly once. -/
def Listable : TreeNode → Prop
  | .mk dirs files links =>
    ListableDirs dirs ∧ (dirs.map Prod.fst).Nodup ∧
      (∀ f ∈ files, contains f arrow = false) ∧ (∀ s ∈ links, UniqueArrow s)
/-- `Listable` for the children of a node. -/
def ListableDirs : List (Str × TreeNode) → Prop
  | [] => True
  | (name, child) :: rest =>
    contains name arrow = false ∧ child.HasEntry ∧ Listable child ∧ ListableDirs rest
end

/-- The lines `l` and `l'` are entry lines with the same number of
indentation markers and the same text; which markers and which connector
they use is free. -/
def Restyle (l l' : Str) : Prop :=
  ∃ (ms ms' : List Str) (conn conn' t : Str),
    (∀ m ∈ ms, IsMarker m) ∧ (∀ m ∈ ms', IsMarker m) ∧ ms.length = ms'.length ∧
    (conn = connBranch ∨ conn = connLast) ∧ (conn' = connBranch ∨ conn' = connLast) ∧
    l = ms.flatten ++ conn ++ t ∧ l' = ms'.flatten ++ conn' ++ t

/-- The line is missing or has at most `d` leading indentation markers. -/
def HeadAtMost (d : Nat) (lines : List Str) : Prop :=
  ∀ next, lines.head? = some next → indentOf next ≤ d

/-! ### Shape of the parsed tree -/

mutual
/-- Every directory stored in the node, at any depth, holds an entry. -/
def NoEmptyDirs : TreeNode → Prop
  | .mk dirs _ _ => NoEmptyDirsIn dirs
/-- `NoEmptyDirs` for the children of a node. -/
def NoEmptyDirsIn : List (Str × TreeNode) → Prop
  | [] => True
  | (_, child) :: rest => child.HasEntry ∧ NoEmptyDirs child ∧ NoEmptyDirsIn rest
end

mutual
/-- The depth of a tree: the largest number of nested directories below
the node. -/
def TreeNode.depth : TreeNode → Nat
  | .mk dirs _ _ => depthOfDirs dirs
/-- The depth contributed by a list of children. -/
def depthOfDirs : List (Str × TreeNode) → Nat
  | [] => 0
  | (_, child) :: rest => max (child.depth + 1) (depthOfDirs rest)
end

/-- The largest number of leading indentation markers among the lines. -/
def maxIndent (lines : List Str) : Nat := (lines.map indentOf).foldr max 0

/-- Every assignment `root.Directories[filename] = branch` made while
`parseTree` runs on the lines, at any depth, creates a key that the node did
not hold: no directory entry repeats a name stored in its directory. -/
def freshDirectoryNames : Nat → List Str → TreeNode → Int → Bool
  | _, [], _, _ => true
  | 0, _ :: _, _, _ => true
  | fuel + 1, line :: lines, root, level =>
    match lineKind line level with
    | .stop => true
    | .noConnector => true
    | .badSymlink _ => true
    | .symlink new old => freshDirectoryNames fuel lines (addSymlink root ⟨new, old⟩) level
    | .entry filename =>
      if lookahead lines level then
        match parseTree lines TreeNode.empty (level + 1) with
        | .returned lines' branch =>
          freshDirectoryNames fuel lines TreeNode.empty (level + 1)
            && (mapGet root.Directories filename).isNone
            && freshDirectoryNames fuel lines' (setDirectory root filename branch) level
        | _ => true
      else freshDirectoryNames fuel lines (addFile root filename) level

/-! ### Materialization

`createStructure` talks to the filesystem through `os.MkdirAll`, `os.Create`
and `os.Symlink`.  The model takes the three operations as a parameter over
a state of the filesystem; each gives the new state and the error, `none`
standing for `nil`.  The `range` over the map `root.Directories`, whose
order Go leaves open, visits the association list in its order. -/

/-- Go `fmt.Sprintf("%s/%s", a, b)`. -/
def joinPath (a b : Str) : Str := a ++ "/".toList ++ b

/-- The operations of package `os` that `createStructure` calls. -/
structure Os (σ : Type) where
  /-- Go `os.MkdirAll(path, 0755)`. -/
  mkdirAll : Str → σ → σ × Option Str
  /-- Go `os.Create(name)`. -/
  create : Str → σ → σ × Option Str
  /-- Go `os.Symlink(oldname, newname)`. -/
  symlink : Str → Str → σ → σ × Option Str

/-- The loop "Create files" of `createStructure`. -/
def createFiles {σ : Type} (os : Os σ) : List Str → Str → σ → σ × Option Str
  | [], _, s => (s, none)
  | fileName :: rest, currentPath, s =>
    match os.create (joinPath currentPath fileName) s with
    | (s1, some err) =>
      (s1, some ("error creating file ".toList ++ joinPath currentPath fileName
        ++ ": ".toList ++ err))
    | (s1, none) => createFiles os rest currentPath s1

/-- The loop "Create symlinks" of `createStructure`. -/
def createSymlinks {σ : Type} (os : Os σ) : List Symlink → Str → σ → σ × Option Str
  | [], _, s => (s, none)
  | symlink :: rest, currentPath, s =>
    match os.symlink (joinPath currentPath symlink.Old) (joinPath currentPath symlink.New) s with
    | (s1, some err) =>
      (s1, some ("error creating symlink from ".toList ++ joinPath currentPath symlink.New
        ++ " to ".toList ++ joinPath currentPath symlink.Old ++ ": ".toList ++ err))
    | (s1, none) => createSymlinks os rest currentPath s1

mutual
/-- Go `createStructure(root, currentPath)`: directories with their
subtrees, then files, then symlinks; the first error ends the call. -/
def createStructure {σ : Type} (os : Os σ) : TreeNode → Str → σ → σ × Option Str
  | .mk dirs files links, currentPath, s =>
    match createDirectories os dirs currentPath s with
    | (s1, some err) => (s1, some err)
    | (s1, none) =>
      match createFiles os files currentPath s1 with
      | (s2, some err) => (s2, some err)
      | (s2, none) => createSymlinks os links currentPath s2
/-- The loop "Create directories" of `createStructure`. -/
def createDirectories {σ : Type} (os : Os σ) :
    List (Str × TreeNode) → Str → σ → σ × Option Str
  | [], _, s => (s, none)
  | (dirName, subDir) :: rest, currentPath, s =>
    match os.mkdirAll (joinPath currentPath dirName) s with
    | (s1, some err) =>
      (s1, some ("error creating directory ".toList ++ joinPath currentPath dirName
        ++ ": ".toList ++ err))
    | (s1, none) =>
      match createStructure os subDir (joinPath currentPath dirName) s1 with
      | (s2, some err) => (s2, some err)
      | (s2, none) => createDirectories os rest currentPath s2
end

/-- One call to the filesystem. -/
inductive FsOp where
  | mkdirAll (path : Str)
  | create (path : Str)
  | symlink (oldname newname : Str)
deriving DecidableEq

/-- The call creates a symlink. -/
def FsOp.isSymlink : FsOp → Bool
  | .symlink _ _ => true
  | _ => false

mutual
/-- The calls that section 4.4 of the specification asks for: for each
directory one directory creation at `base/<dir>` followed by the calls for
its child under that path, for each file one file creation at `base/<file>`,
for each symlink one symlink creation at `base/<New>` with the target
string `base/<Old>`. -/
def operations : TreeNode → Str → List FsOp
  | .mk dirs files links, base =>
    operationsDirs dirs base
      ++ files.map (fun f => FsOp.create (joinPath base f))
      ++ links.map (fun l => FsOp.symlink (joinPath base l.Old) (joinPath base l.New))
/-- The calls for a list of directories. -/
def operationsDirs : List (Str × TreeNode) → Str → List FsOp
  | [], _ => []
  | (name, child) :: rest, base =>
    FsOp.mkdirAll (joinPath base name)
      :: (operations child (joinPath base name) ++ operationsDirs rest base)
end

/-- One call on the filesystem, its error wrapped as `createStructure`
wraps it. -/
def Os.exec {σ : Type} (os : Os σ) : FsOp → σ → σ × Option Str
  | .mkdirAll path, s =>
    match os.mkdirAll path s with
    | (s1, some err) =>
      (s1, some ("error creating directory ".toList ++ path ++ ": ".toList ++ err))
    | (s1, none) => (s1, none)
  | .create path, s =>
    match os.create path s with
    | (s1, some err) =>
      (s1, some ("error creating file ".toList ++ path ++ ": ".toList ++ err))
    | (s1, none) => (s1, none)
  | .symlink oldname newname, s =>
    match os.symlink oldname newname s with
    | (s1, some err) =>
      (s1, some ("error creating symlink from ".toList ++ newname
        ++ " to ".toList ++ oldname ++ ": ".toList ++ err))
    | (s1, none) => (s1, none)

/-- The calls one after the other, up to the first error. -/
def runOps {σ : Type} (os : Os σ) : List FsOp → σ → σ × Option Str
  | [], s => (s, none)
  | op :: rest, s =>
    match os.exec op s with
    | (s1, some err) => (s1, some err)
    | (s1, none) => runOps os rest s1

/-- A filesystem on which no operation fails and which keeps the list of
the calls it received. -/
def recorder : Os (List FsOp) where
  mkdirAll path s := (s ++ [FsOp.mkdirAll path], none)
  create path s := (s ++ [FsOp.create path], none)
  symlink oldname newname s := (s ++ [FsOp.symlink oldname newname], none)

/-- The answers of package `os` on a filesystem that already holds every
path it is asked for, as a second materialization finds it: `MkdirAll` meets
the directory and returns `nil`, `Create` truncates the file and returns
`nil`, `Symlink` meets the new name and returns the error
`symlink <old> <new>: file exists`.  None of the calls changes what the
filesystem holds, so the state is the unit. -/
def alreadyThere : Os Unit where
  mkdirAll _ s := (s, none)
  create _ s := (s, none)
  symlink oldname newname s :=
    (s, some ("symlink ".toList ++ oldname ++ " ".toList ++ newname
      ++ ": file exists".toList))

/-! ## Strings -/

theorem hasPrefix_iff (s p : Str) : hasPrefix s p = true ↔ ∃ t, s = p ++ t := by
  unfold hasPrefix
  rw [List.isPrefixOf_iff_prefix]
  constructor
  · rintro ⟨t, rfl⟩
    exact ⟨t, rfl⟩
  · rintro ⟨t, rfl⟩
    exact ⟨t, rfl⟩

theorem hasPrefix_append (p t : Str) : hasPrefix (p ++ t) p = true :=
  (hasPrefix_iff _ _).2 ⟨t, rfl⟩

theorem trimPrefix_append (p t : Str) : trimPrefix (p ++ t) p = t := by
  simp [trimPrefix, hasPrefix_append]

theorem hasPrefix_bar_blank (t : Str) : hasPrefix (markerBlank ++ t) markerBar = false := by
  simp [hasPrefix, markerBlank, markerBar, List.isPrefixOf]

theorem marker_length (m : Str) (hm : IsMarker m) : m.length = 4 := by
  rcases hm with rfl | rfl <;> rfl

/-! ## `checkLineLevel` -/

theorem checkLineLevelLoop_markers (ms : List Str) (tail : Str)
    (hms : ∀ m ∈ ms, IsMarker m) (ht : NoMarkerStart tail) :
    ∀ (fuel c : Nat), (ms.flatten ++ tail).length ≤ fuel →
      checkLineLevelLoop fuel (ms.flatten ++ tail) c = some (tail, c + ms.length) := by
  induction ms with
  | nil =>
    intro fuel c hf
    cases fuel with
    | zero =>
      have h0 : tail = [] := by
        simpa using hf
      subst h0
      simp [checkLineLevelLoop]
    | succ f =>
      simp [checkLineLevelLoop, ht.1, ht.2]
  | cons m ms ih =>
    intro fuel c hf
    have hm : IsMarker m := hms m (List.mem_cons_self _ _)
    have hms' : ∀ m' ∈ ms, IsMarker m' := fun m' h => hms m' (List.mem_cons_of_mem _ h)
    have hlen := marker_length m hm
    have heq : (m :: ms).flatten ++ tail = m ++ (ms.flatten ++ tail) := by
      simp [List.flatten_cons, List.append_assoc]
    rw [heq] at hf ⊢
    rw [List.length_append, hlen] at hf
    cases fuel with
    | zero => omega
    | succ f =>
      have hpos : (m ++ (ms.flatten ++ tail)).length > 0 := by
        rw [List.length_append, hlen]; omega
      have hf' : (ms.flatten ++ tail).length ≤ f := by omega
      rw [checkLineLevelLoop, if_pos hpos]
      rcases hm with rfl | rfl
      · rw [if_pos (hasPrefix_append _ _), trimPrefix_append, ih hms' f (c + 1) hf']
        simp only [List.length_cons]
        congr 2
        omega
      · rw [if_neg (by simp [hasPrefix_bar_blank]), if_pos (hasPrefix_append _ _),
          trimPrefix_append, ih hms' f (c + 1) hf']
        simp only [List.length_cons]
        congr 2
        omega

theorem exists_markers (line : Str) :
    ∃ (ms : List Str) (tail : Str),
      (∀ m ∈ ms, IsMarker m) ∧ NoMarkerStart tail ∧ line = ms.flatten ++ tail := by
  generalize h : line.length = n
  induction n using Nat.strong_induction_on generalizing line with
  | _ n ih =>
    by_cases h1 : hasPrefix line markerBar = true
    · obtain ⟨t, rfl⟩ := (hasPrefix_iff _ _).1 h1
      have hl : t.length < n := by
        rw [← h, List.length_append, marker_length _ (Or.inl rfl)]; omega
      obtain ⟨ms, tail, hms, ht, rfl⟩ := ih _ hl t rfl
      refine ⟨markerBar :: ms, tail, ?_, ht, by simp [List.flatten_cons, List.append_assoc]⟩
      intro m hm
      rcases List.mem_cons.1 hm with rfl | hm
      · exact Or.inl rfl
      · exact hms m hm
    · by_cases h2 : hasPrefix line markerBlank = true
      · obtain ⟨t, rfl⟩ := (hasPrefix_iff _ _).1 h2
        have hl : t.length < n := by
          rw [← h, List.length_append, marker_length _ (Or.inr rfl)]; omega
        obtain ⟨ms, tail, hms, ht, rfl⟩ := ih _ hl t rfl
        refine ⟨markerBlank :: ms, tail, ?_, ht, by simp [List.flatten_cons, List.append_assoc]⟩
        intro m hm
        rcases List.mem_cons.1 hm with rfl | hm
        · exact Or.inr rfl
        · exact hms m hm
      · refine ⟨[], line, by simp, ⟨by simpa using h1, by simpa using h2⟩, by simp⟩

theorem checkLineLevel_markers (ms : List Str) (tail : Str)
    (hms : ∀ m ∈ ms, IsMarker m) (ht : NoMarkerStart tail) (level : Int) :
    checkLineLevel (ms.flatten ++ tail) level
      = (tail, decide ((ms.length : Int) = level)) := by
  unfold checkLineLevel
  rw [checkLineLevelLoop_markers ms tail hms ht _ 0 (le_refl _)]
  simp

theorem indentOf_markers (ms : List Str) (tail : Str)
    (hms : ∀ m ∈ ms, IsMarker m) (ht : NoMarkerStart tail) :
    indentOf (ms.flatten ++ tail) = ms.length := by
  unfold indentOf
  rw [checkLineLevelLoop_markers ms tail hms ht _ 0 (le_refl _)]
  simp

theorem stripped_markers (ms : List Str) (tail : Str)
    (hms : ∀ m ∈ ms, IsMarker m) (ht : NoMarkerStart tail) :
    stripped (ms.flatten ++ tail) = tail := by
  unfold stripped
  rw [checkLineLevel_markers ms tail hms ht]

theorem checkLineLevel_eq (line : Str) (level : Int) :
    checkLineLevel line level = (stripped line, decide ((indentOf line : Int) = level)) := by
  obtain ⟨ms, tail, hms, ht, rfl⟩ := exists_markers line
  rw [checkLineLevel_markers ms tail hms ht, stripped_markers ms tail hms ht,
    indentOf_markers ms tail hms ht]

theorem stripped_noMarkerStart (line : Str) : NoMarkerStart (stripped line) := by
  obtain ⟨ms, tail, hms, ht, rfl⟩ := exists_markers line
  rw [stripped_markers ms tail hms ht]
  exact ht

/-- C1. Depth inference: a line made of `k` indentation markers followed
by a tail that begins with neither marker classifies at level `k`, with the
tail as remainder, and at no other level. -/
theorem checkLineLevel_depth_inference (ms : List Str) (tail : Str)
    (hms : ∀ m ∈ ms, m = markerBar ∨ m = markerBlank)
    (ht : hasPrefix tail markerBar = false ∧ hasPrefix tail markerBlank = false) :
    checkLineLevel (ms.flatten ++ tail) (ms.length : Int) = (tail, true) ∧
      ∀ j : Int, j ≠ (ms.length : Int) → (checkLineLevel (ms.flatten ++ tail) j).2 = false := by
  constructor
  · rw [checkLineLevel_markers ms tail hms ht]
    simp
  · intro j hj
    rw [checkLineLevel_markers ms tail hms ht]
    simpa using fun h => hj h.symm

/-- Witness for C1 on `"│       ├── a"`: two markers, then a connector. -/
theorem checkLineLevel_depth_inference_witness :
    checkLineLevel ([markerBar, markerBlank].flatten ++ "├── a".toList) 2
        = ("├── a".toList, true) ∧
      ∀ j : Int, j ≠ 2 →
        (checkLineLevel ([markerBar, markerBlank].flatten ++ "├── a".toList) j).2 = false :=
  checkLineLevel_depth_inference [markerBar, markerBlank] "├── a".toList
    (by intro m hm; simp at hm; exact hm) (by decide)

/-! ## `parseTree`: fuel and unfolding -/

theorem parseTreeLoop_succ_cons (fuel : Nat) (line : Str) (lines : List Str)
    (root : TreeNode) (level : Int) :
    parseTreeLoop (fuel + 1) (line :: lines) root level =
      match lineKind line level with
      | .stop => .returned (line :: lines) root
      | .noConnector => .panicked (notAnElement (stripped line))
      | .badSymlink filename => .panicked (symlinkError filename)
      | .symlink new old => parseTreeLoop fuel lines (addSymlink root ⟨new, old⟩) level
      | .entry filename =>
        if lookahead lines level then
          (parseTreeLoop fuel lines TreeNode.empty (level + 1)).andThen
            (fun lines' branch =>
              parseTreeLoop fuel lines' (setDirectory root filename branch) level)
        else parseTreeLoop fuel lines (addFile root filename) level := by
  have hs : stripped line = (checkLineLevel line level).1 := by
    rw [checkLineLevel_eq]
  rw [parseTreeLoop, lineKind, hs]
  rcases checkLineLevel line level with ⟨sl, b⟩
  cases b
  · simp
  · simp only [Bool.not_true, Bool.false_eq_true, ↓reduceIte]
    cases entryName sl with
    | none => rfl
    | some filename =>
      simp only
      by_cases hc : contains filename arrow = true
      · simp only [hc, ↓reduceIte]
        split <;> simp_all
      · simp only [hc, ↓reduceIte, Bool.false_eq_true]
        by_cases hl : lookahead lines level = true
        · simp only [hl, ↓reduceIte, Outcome.andThen]
          cases parseTreeLoop fuel lines TreeNode.empty (level + 1) <;> rfl
        · simp only [hl, ↓reduceIte, Bool.false_eq_true]
          rfl

theorem parseTreeLoop_nil (fuel : Nat) (root : TreeNode) (level : Int) :
    parseTreeLoop fuel [] root level = .returned [] root := by
  cases fuel <;> rfl

theorem parseTreeLoop_enough :
    ∀ (fuel : Nat) (lines : List Str) (root : TreeNode) (level : Int),
      lines.length ≤ fuel →
      (∀ fuel2, lines.length ≤ fuel2 →
        parseTreeLoop fuel2 lines root level = parseTreeLoop fuel lines root level) ∧
      parseTreeLoop fuel lines root level ≠ .outOfFuel ∧
      ∀ r n, parseTreeLoop fuel lines root level = .returned r n → r <:+ lines := by
  intro fuel
  induction fuel with
  | zero =>
    intro lines root level hlen
    have h0 : lines = [] := List.length_eq_zero.1 (Nat.le_zero.1 hlen)
    subst h0
    refine ⟨fun fuel2 _ => by rw [parseTreeLoop_nil, parseTreeLoop_nil], ?_, ?_⟩
    · rw [parseTreeLoop_nil]; exact fun h => Outcome.noConfusion h
    · intro r n h
      rw [parseTreeLoop_nil] at h
      cases h
      exact List.suffix_refl _
  | succ fuel ih =>
    intro lines root level hlen
    cases lines with
    | nil =>
      refine ⟨fun fuel2 _ => by rw [parseTreeLoop_nil, parseTreeLoop_nil], ?_, ?_⟩
      · rw [parseTreeLoop_nil]; exact fun h => Outcome.noConfusion h
      · intro r n h
        rw [parseTreeLoop_nil] at h
        cases h
        exact List.suffix_refl _
    | cons line rest =>
      have hrest : rest.length ≤ fuel := by
        simp only [List.length_cons] at hlen; omega
      have key : ∀ fuel2, rest.length ≤ fuel2 →
          parseTreeLoop (fuel2 + 1) (line :: rest) root level
            = parseTreeLoop (fuel + 1) (line :: rest) root level := by
        intro f2 hf2
        rw [parseTreeLoop_succ_cons, parseTreeLoop_succ_cons]
        cases lineKind line level with
        | stop => rfl
        | noConnector => rfl
        | badSymlink filename => rfl
        | symlink new old => exact (ih rest _ level hrest).1 f2 hf2
        | entry filename =>
          simp only
          rw [(ih rest TreeNode.empty (level + 1) hrest).1 f2 hf2,
            (ih rest (addFile root filename) level hrest).1 f2 hf2]
          cases hrec : parseTreeLoop fuel rest TreeNode.empty (level + 1) with
          | returned lines' branch =>
            have hsuf := (ih rest TreeNode.empty (level + 1) hrest).2.2 _ _ hrec
            have hl' : lines'.length ≤ fuel := le_trans hsuf.length_le hrest
            have hl2 : lines'.length ≤ f2 := le_trans hsuf.length_le hf2
            simp only [Outcome.andThen]
            rw [(ih lines' _ level hl').1 f2 hl2]
          | panicked msg => rfl
          | outOfFuel => rfl
      refine ⟨?_, ?_, ?_⟩
      · intro fuel2 hf2
        cases fuel2 with
        | zero => simp at hf2
        | succ f2 =>
          exact key f2 (by simp only [List.length_cons] at hf2; omega)
      · rw [parseTreeLoop_succ_cons]
        cases lineKind line level with
        | stop => exact fun h => Outcome.noConfusion h
        | noConnector => exact fun h => Outcome.noConfusion h
        | badSymlink filename => exact fun h => Outcome.noConfusion h
        | symlink new old => exact (ih rest _ level hrest).2.1
        | entry filename =>
          simp only
          split
          · cases hrec : parseTreeLoop fuel rest TreeNode.empty (level + 1) with
            | returned lines' branch =>
              have hsuf := (ih rest TreeNode.empty (level + 1) hrest).2.2 _ _ hrec
              have hl' : lines'.length ≤ fuel := le_trans hsuf.length_le hrest
              exact (ih lines' _ level hl').2.1
            | panicked msg => exact fun h => Outcome.noConfusion h
            | outOfFuel =>
              exact absurd hrec (ih rest TreeNode.empty (level + 1) hrest).2.1
          · exact (ih rest _ level hrest).2.1
      · intro r n
        rw [parseTreeLoop_succ_cons]
        cases lineKind line level with
        | stop =>
          intro h
          cases h
          exact List.suffix_refl _
        | noConnector => exact fun h => Outcome.noConfusion h
        | badSymlink filename => exact fun h => Outcome.noConfusion h
        | symlink new old =>
          intro h
          exact ((ih rest _ level hrest).2.2 r n h).trans (List.suffix_cons _ _)
        | entry filename =>
          simp only
          split
          · cases hrec : parseTreeLoop fuel rest TreeNode.empty (level + 1) with
            | returned lines' branch =>
              have hsuf := (ih rest TreeNode.empty (level + 1) hrest).2.2 _ _ hrec
              have hl' : lines'.length ≤ fuel := le_trans hsuf.length_le hrest
              intro h
              exact (((ih lines' _ level hl').2.2 r n h).trans hsuf).trans
                (List.suffix_cons _ _)
            | panicked msg => exact fun h => Outcome.noConfusion h
            | outOfFuel => exact fun h => Outcome.noConfusion h
          · intro h
            exact ((ih rest _ level hrest).2.2 r n h).trans (List.suffix_cons _ _)

theorem parseTreeLoop_eq_parseTree (fuel : Nat) (lines : List Str) (root : TreeNode)
    (level : Int) (h : lines.length ≤ fuel) :
    parseTreeLoop fuel lines root level = parseTree lines root level :=
  (parseTreeLoop_enough lines.length lines root level (le_refl _)).1 fuel h

theorem parseTree_nil (root : TreeNode) (level : Int) :
    parseTree [] root level = .returned [] root := rfl

theorem parseTree_ne_outOfFuel (lines : List Str) (root : TreeNode) (level : Int) :
    parseTree lines root level ≠ .outOfFuel :=
  (parseTreeLoop_enough lines.length lines root level (le_refl _)).2.1

theorem parseTree_suffix (lines : List Str) (root : TreeNode) (level : Int)
    (r : List Str) (n : TreeNode) (h : parseTree lines root level = .returned r n) :
    r <:+ lines :=
  (parseTreeLoop_enough lines.length lines root level (le_refl _)).2.2 r n h

theorem parseTree_cons (line : Str) (lines : List Str) (root : TreeNode) (level : Int) :
    parseTree (line :: lines) root level =
      match lineKind line level with
      | .stop => .returned (line :: lines) root
      | .noConnector => .panicked (notAnElement (stripped line))
      | .badSymlink filename => .panicked (symlinkError filename)
      | .symlink new old => parseTree lines (addSymlink root ⟨new, old⟩) level
      | .entry filename =>
        if lookahead lines level then
          (parseTree lines TreeNode.empty (level + 1)).andThen
            (fun lines' branch => parseTree lines' (setDirectory root filename branch) level)
        else parseTree lines (addFile root filename) level := by
  have hunf : parseTree (line :: lines) root level
      = parseTreeLoop (lines.length + 1) (line :: lines) root level := rfl
  rw [hunf, parseTreeLoop_succ_cons]
  cases lineKind line level with
  | stop => rfl
  | noConnector => rfl
  | badSymlink filename => rfl
  | symlink new old => rfl
  | entry filename =>
    simp only
    have h1 : parseTreeLoop lines.length lines TreeNode.empty (level + 1)
        = parseTree lines TreeNode.empty (level + 1) := rfl
    have h2 : parseTreeLoop lines.length lines (addFile root filename) level
        = parseTree lines (addFile root filename) level := rfl
    rw [h1, h2]
    cases hrec : parseTree lines TreeNode.empty (level + 1) with
    | returned lines' branch =>
      simp only [Outcome.andThen]
      rw [parseTreeLoop_eq_parseTree _ _ _ _ (parseTree_suffix _ _ _ _ _ hrec).length_le]
    | panicked msg => rfl
    | outOfFuel => rfl

theorem parseTree_stop (line : Str) (lines : List Str) (root : TreeNode) (level : Int)
    (h : lineKind line level = .stop) :
    parseTree (line :: lines) root level = .returned (line :: lines) root := by
  rw [parseTree_cons, h]

theorem parseTree_noConnector (line : Str) (lines : List Str) (root : TreeNode)
    (level : Int) (h : lineKind line level = .noConnector) :
    parseTree (line :: lines) root level = .panicked (notAnElement (stripped line)) := by
  rw [parseTree_cons, h]

theorem parseTree_badSymlink (line : Str) (lines : List Str) (root : TreeNode)
    (level : Int) (filename : Str) (h : lineKind line level = .badSymlink filename) :
    parseTree (line :: lines) root level = .panicked (symlinkError filename) := by
  rw [parseTree_cons, h]

theorem parseTree_symlink (line : Str) (lines : List Str) (root : TreeNode)
    (level : Int) (new old : Str) (h : lineKind line level = .symlink new old) :
    parseTree (line :: lines) root level
      = parseTree lines (addSymlink root ⟨new, old⟩) level := by
  rw [parseTree_cons, h]

theorem parseTree_file (line : Str) (lines : List Str) (root : TreeNode)
    (level : Int) (filename : Str) (h : lineKind line level = .entry filename)
    (hl : lookahead lines level = false) :
    parseTree (line :: lines) root level
      = parseTree lines (addFile root filename) level := by
  rw [parseTree_cons, h]
  simp [hl]

theorem parseTree_directory (line : Str) (lines : List Str) (root : TreeNode)
    (level : Int) (filename : Str) (h : lineKind line level = .entry filename)
    (hl : lookahead lines level = true) :
    parseTree (line :: lines) root level
      = (parseTree lines TreeNode.empty (level + 1)).andThen
          (fun lines' branch => parseTree lines' (setDirectory root filename branch) level) := by
  rw [parseTree_cons, h]
  simp [hl]

/-! ## The kind of a line -/

theorem lineKind_stop_iff (line : Str) (level : Int) :
    lineKind line level = .stop ↔ (indentOf line : Int) ≠ level := by
  unfold lineKind
  rw [checkLineLevel_eq]
  by_cases h : (indentOf line : Int) = level
  · simp only [h, decide_True, Bool.true_eq_false, ↓reduceIte, ne_eq, not_true_eq_false,
      iff_false]
    cases entryName (stripped line) with
    | none => simp
    | some filename =>
      simp only
      split
      · split <;> simp
      · simp
  · simp [h]

theorem lineKind_of_level (line : Str) (level : Int)
    (h : (checkLineLevel line level).2 = true) :
    lineKind line level =
      match entryName (stripped line) with
      | none => .noConnector
      | some filename =>
        if contains filename arrow then
          match split filename arrow with
          | [new, old] => .symlink new old
          | _ => .badSymlink filename
        else .entry filename := by
  have hs : stripped line = (checkLineLevel line level).1 := by
    rw [checkLineLevel_eq]
  rw [lineKind, hs]
  simp [h]

theorem lineKind_noConnector (line : Str) (level : Int)
    (h : (checkLineLevel line level).2 = true)
    (hb : hasPrefix (stripped line) connBranch = false)
    (hl : hasPrefix (stripped line) connLast = false) :
    lineKind line level = .noConnector := by
  rw [lineKind_of_level line level h]
  simp [entryName, hb, hl]

theorem lineKind_symlink (line : Str) (level : Int) (filename new old : Str)
    (h : (checkLineLevel line level).2 = true)
    (hname : entryName (stripped line) = some filename)
    (hc : contains filename arrow = true) (hs : split filename arrow = [new, old]) :
    lineKind line level = .symlink new old := by
  rw [lineKind_of_level line level h, hname]
  simp [hc, hs]

theorem lineKind_entry (line : Str) (level : Int) (filename : Str)
    (h : (checkLineLevel line level).2 = true)
    (hname : entryName (stripped line) = some filename)
    (hc : contains filename arrow = false) :
    lineKind line level = .entry filename := by
  rw [lineKind_of_level line level h, hname]
  simp [hc]

theorem stripped_eq (line : Str) (level : Int) :
    (checkLineLevel line level).1 = stripped line := by
  rw [checkLineLevel_eq]

theorem hasLevel_iff (line : Str) (level : Int) :
    (checkLineLevel line level).2 = true ↔ (indentOf line : Int) = level := by
  rw [checkLineLevel_eq]
  simp

theorem parseTree_single_directories (line : Str) (root : TreeNode) (level : Int)
    (r : List Str) (n : TreeNode) (h : parseTree [line] root level = .returned r n) :
    n.Directories = root.Directories := by
  rw [parseTree_cons] at h
  cases hk : lineKind line level with
  | stop =>
    rw [hk] at h
    cases h
    rfl
  | noConnector => rw [hk] at h; cases h
  | badSymlink filename => rw [hk] at h; cases h
  | symlink new old =>
    rw [hk] at h
    simp only [parseTree_nil] at h
    cases h
    rfl
  | entry filename =>
    rw [hk] at h
    simp only [lookahead, Bool.false_eq_true, ↓reduceIte, parseTree_nil] at h
    cases h
    rfl

/-! ## Claims on single parsing steps -/

/-- C6. `parseTree` consumes a prefix of its input: whenever it returns,
the input is some consumed lines followed by exactly the returned lines. -/
theorem parseTree_consumes_prefix (lines : List Str) (root : TreeNode) (level : Int)
    (r : List Str) (n : TreeNode) (h : parseTree lines root level = .returned r n) :
    ∃ consumed, lines = consumed ++ r := by
  obtain ⟨consumed, hc⟩ := parseTree_suffix lines root level r n h
  exact ⟨consumed, hc.symm⟩

/-- Witness for C6: a directory with one file, then a line that is too deep. -/
theorem parseTree_consumes_prefix_witness :
    parseTree ["├── a".toList, "│   └── b".toList, "            c".toList] TreeNode.empty 0
        = .returned ["            c".toList]
            (.mk [("a".toList, .mk [] ["b".toList] [])] [] []) ∧
      ∃ consumed, ["├── a".toList, "│   └── b".toList, "            c".toList]
        = consumed ++ ["            c".toList] :=
  ⟨by rfl, parseTree_consumes_prefix _ TreeNode.empty 0 _
    (.mk [("a".toList, .mk [] ["b".toList] [])] [] []) (by rfl)⟩

/-- C7. Connector violation is fatal: a first line that classifies at the
level but whose remainder starts with neither connector makes `parseTree`
panic with "Not an element", whatever lines follow. -/
theorem parseTree_connector_violation (line : Str) (lines : List Str) (root : TreeNode)
    (level : Int) (hlevel : (checkLineLevel line level).2 = true)
    (hb : hasPrefix (checkLineLevel line level).1 connBranch = false)
    (hl : hasPrefix (checkLineLevel line level).1 connLast = false) :
    parseTree (line :: lines) root level
      = .panicked ("Not an element: ".toList ++ (checkLineLevel line level).1) := by
  rw [stripped_eq] at hb hl ⊢
  exact parseTree_noConnector line lines root level (lineKind_noConnector line level hlevel hb hl)

/-- Witness for C7: the line `"    x"` at level 1 in front of a valid line. -/
theorem parseTree_connector_violation_witness :
    (checkLineLevel "    x".toList 1).2 = true ∧
      parseTree ["    x".toList, "    └── y".toList] TreeNode.empty 1
        = .panicked ("Not an element: ".toList ++ (checkLineLevel "    x".toList 1).1) :=
  ⟨by decide, parseTree_connector_violation "    x".toList ["    └── y".toList]
    TreeNode.empty 1 (by decide) (by decide) (by decide)⟩

/-- C9. Symlinks are never directories: a symlink line at level `d` followed
by a line that classifies at level `d+1` is recorded in `Symlinks` only, and
the call returns with the deeper line as first unconsumed line. -/
theorem parseTree_symlink_never_directory (line next : Str) (more : List Str)
    (root : TreeNode) (d : Int) (filename new old : Str)
    (hlevel : (checkLineLevel line d).2 = true)
    (hname : entryName (checkLineLevel line d).1 = some filename)
    (hc : contains filename arrow = true) (hs : split filename arrow = [new, old])
    (hnext : (checkLineLevel next (d + 1)).2 = true) :
    parseTree (line :: next :: more) root d
        = .returned (next :: more) (addSymlink root ⟨new, old⟩) ∧
      (addSymlink root ⟨new, old⟩).Symlinks = root.Symlinks ++ [⟨new, old⟩] ∧
      (addSymlink root ⟨new, old⟩).Directories = root.Directories ∧
      (addSymlink root ⟨new, old⟩).Files = root.Files := by
  rw [stripped_eq] at hname
  refine ⟨?_, rfl, rfl, rfl⟩
  rw [parseTree_symlink line _ root d new old
    (lineKind_symlink line d filename new old hlevel hname hc hs)]
  apply parseTree_stop
  rw [lineKind_stop_iff]
  rw [hasLevel_iff] at hnext
  omega

/-- Witness for C9: `l -> t` at level 0 followed by a line of level 1. -/
theorem parseTree_symlink_never_directory_witness :
    parseTree ["├── l -> t".toList, "│   └── x".toList, "└── y".toList] TreeNode.empty 0
        = .returned ["│   └── x".toList, "└── y".toList]
            (addSymlink TreeNode.empty ⟨"l".toList, "t".toList⟩) :=
  (parseTree_symlink_never_directory "├── l -> t".toList "│   └── x".toList
    ["└── y".toList] TreeNode.empty 0 "l -> t".toList "l".toList "t".toList
    (by decide) (by decide) (by decide) (by decide) (by decide)).1

/-! ## `strings.Index` and `strings.Split` -/

theorem occursAt_zero (s sep : Str) : OccursAt s sep 0 ↔ hasPrefix s sep = true := by
  simp [OccursAt]

theorem occursAt_succ (c : Char) (t sep : Str) (i : Nat) :
    OccursAt (c :: t) sep (i + 1) ↔ OccursAt t sep i := by
  simp [OccursAt]

theorem occursAt_nil (sep : Str) (hsep : hasPrefix [] sep = false) (i : Nat) :
    ¬ OccursAt [] sep i := by
  simp [OccursAt, hsep]

theorem index_none (sep : Str) (hsep : hasPrefix [] sep = false) :
    ∀ (s : Str), index s sep = none → ∀ i, ¬ OccursAt s sep i := by
  intro s
  induction s with
  | nil => intro _ i; exact occursAt_nil sep hsep i
  | cons c t ih =>
    intro h i
    rw [index] at h
    by_cases hp : hasPrefix (c :: t) sep = true
    · simp [hp] at h
    · simp only [hp, Bool.false_eq_true, ↓reduceIte, Option.map_eq_none'] at h
      cases i with
      | zero => rw [occursAt_zero]; exact hp
      | succ i => rw [occursAt_succ]; exact ih h i

theorem index_some (sep : Str) :
    ∀ (s : Str) (m : Nat), index s sep = some m →
      OccursAt s sep m ∧ ∀ i, i < m → ¬ OccursAt s sep i := by
  intro s
  induction s with
  | nil =>
    intro m h
    rw [index] at h
    by_cases hp : hasPrefix [] sep = true
    · simp only [hp, ↓reduceIte, Option.some.injEq] at h
      subst h
      exact ⟨(occursAt_zero _ _).2 hp, fun i hi => absurd hi (Nat.not_lt_zero i)⟩
    · simp [hp] at h
  | cons c t ih =>
    intro m h
    rw [index] at h
    by_cases hp : hasPrefix (c :: t) sep = true
    · simp only [hp, ↓reduceIte, Option.some.injEq] at h
      subst h
      exact ⟨(occursAt_zero _ _).2 hp, fun i hi => absurd hi (Nat.not_lt_zero i)⟩
    · simp only [hp, Bool.false_eq_true, ↓reduceIte, Option.map_eq_some'] at h
      obtain ⟨m', hm', rfl⟩ := h
      obtain ⟨h1, h2⟩ := ih m' hm'
      refine ⟨(occursAt_succ _ _ _ _).2 h1, ?_⟩
      intro i hi
      cases i with
      | zero => rw [occursAt_zero]; exact hp
      | succ i => rw [occursAt_succ]; exact h2 i (by omega)

theorem index_of_occursAt (sep : Str) (hsep : hasPrefix [] sep = false) (s : Str) (i : Nat)
    (h : OccursAt s sep i) : ∃ m, index s sep = some m ∧ m ≤ i := by
  cases hm : index s sep with
  | none => exact absurd h (index_none sep hsep s hm i)
  | some m =>
    refine ⟨m, rfl, ?_⟩
    by_contra hlt
    exact (index_some sep s m hm).2 i (by omega) h

theorem arrow_nil : hasPrefix [] arrow = false := by decide

theorem occursAt_length (s : Str) (i : Nat) (h : OccursAt s arrow i) :
    i + 4 ≤ s.length := by
  obtain ⟨t, ht⟩ := (hasPrefix_iff _ _).1 h
  have hl := congrArg List.length ht
  simp only [List.length_drop, List.length_append] at hl
  have : arrow.length = 4 := rfl
  omega

theorem occursAt_drop (s sep : Str) (k i : Nat) :
    OccursAt (s.drop k) sep i ↔ OccursAt s sep (k + i) := by
  simp [OccursAt, List.drop_drop, Nat.add_comm]

theorem splitLoop_length_pos (n : Nat) (s sep : Str) : 1 ≤ (splitLoop n s sep).length := by
  cases n with
  | zero => simp [splitLoop]
  | succ n =>
    rw [splitLoop]
    split <;> simp

theorem contains_iff (s : Str) : contains s arrow = true ↔ ∃ i, OccursAt s arrow i := by
  unfold contains
  constructor
  · intro h
    cases hm : index s arrow with
    | none => simp [hm] at h
    | some m => exact ⟨m, (index_some arrow s m hm).1⟩
  · rintro ⟨i, hi⟩
    obtain ⟨m, hm, _⟩ := index_of_occursAt arrow arrow_nil s i hi
    simp [hm]

theorem split_unique (a b : Str)
    (huniq : ∀ i, OccursAt (a ++ arrow ++ b) arrow i → i = a.length) :
    split (a ++ arrow ++ b) arrow = [a, b] := by
  have hocc : OccursAt (a ++ arrow ++ b) arrow a.length := by
    simp [OccursAt, List.append_assoc, hasPrefix_append]
  obtain ⟨m, hm, _⟩ := index_of_occursAt arrow arrow_nil _ _ hocc
  have hma : m = a.length := huniq m (index_some arrow _ m hm).1
  subst hma
  have hlen : (a ++ arrow ++ b).length = (a.length + 3 + b.length) + 1 := by
    have : arrow.length = 4 := rfl
    simp only [List.length_append, this]; omega
  have hb : index b arrow = none := by
    cases hb : index b arrow with
    | none => rfl
    | some k =>
      have h1 := (index_some arrow b k hb).1
      have h2 : OccursAt (a ++ arrow ++ b) arrow ((a ++ arrow).length + k) := by
        rw [← occursAt_drop, List.drop_left]
        exact h1
      have h3 := huniq _ h2
      have : arrow.length = 4 := rfl
      simp only [List.length_append, this] at h3
      omega
  rw [split, hlen, splitLoop, hm]
  simp only
  have h4 : a.length + arrow.length = (a ++ arrow).length := by simp
  rw [h4, List.drop_left, List.append_assoc, List.take_left]
  congr 1
  cases (a.length + 3 + b.length) with
  | zero => rfl
  | succ n => rw [splitLoop, hb]

theorem split_length_ge_three (s : Str) (i j : Nat) (hi : OccursAt s arrow i)
    (hj : OccursAt s arrow j) (hij : i + arrow.length ≤ j) :
    3 ≤ (split s arrow).length := by
  have h4 : arrow.length = 4 := rfl
  rw [h4] at hij
  obtain ⟨m, hm, hmi⟩ := index_of_occursAt arrow arrow_nil s i hi
  have hjl := occursAt_length s j hj
  have hrem : ∃ k, OccursAt (s.drop (m + arrow.length)) arrow k := by
    rw [h4]
    by_cases hc : m + 4 ≤ i
    · refine ⟨i - (m + 4), ?_⟩
      rw [occursAt_drop]
      have : m + 4 + (i - (m + 4)) = i := by omega
      rw [this]; exact hi
    · refine ⟨j - (m + 4), ?_⟩
      rw [occursAt_drop]
      have : m + 4 + (j - (m + 4)) = j := by omega
      rw [this]; exact hj
  obtain ⟨k, hk⟩ := hrem
  obtain ⟨m', hm', _⟩ := index_of_occursAt arrow arrow_nil _ k hk
  obtain ⟨n, hn⟩ : ∃ n, s.length = n + 2 := ⟨s.length - 2, by omega⟩
  rw [split, hn, splitLoop, hm]
  simp only
  rw [splitLoop, hm']
  simp only [List.length_cons]
  have := splitLoop_length_pos n (List.drop (m' + arrow.length) (List.drop (m + arrow.length) s)) arrow
  omega

theorem lineKind_badSymlink (line : Str) (level : Int) (filename : Str)
    (h : (checkLineLevel line level).2 = true)
    (hname : entryName (stripped line) = some filename)
    (hc : contains filename arrow = true) (hs : 3 ≤ (split filename arrow).length) :
    lineKind line level = .badSymlink filename := by
  rw [lineKind_of_level line level h, hname]
  simp only [hc, ↓reduceIte]
  split
  · rename_i new old heq
    rw [heq] at hs
    simp at hs
  · rfl

/-! ## Claims on symlink entries -/

/-- C4, as stated, fails: in `"a -> -> b"` the separator stands at positions
1 and 4, and the line is accepted as a symlink cut at the first of them. -/
theorem parseTree_symlink_overlap_accepted :
    (checkLineLevel "├── a -> -> b".toList 0).2 = true ∧
      entryName (checkLineLevel "├── a -> -> b".toList 0).1 = some "a -> -> b".toList ∧
      OccursAt "a -> -> b".toList arrow 1 ∧ OccursAt "a -> -> b".toList arrow 4 ∧
      parseTree ["├── a -> -> b".toList] TreeNode.empty 0
        = .returned [] (.mk [] [] [⟨"a".toList, "-> b".toList⟩]) ∧
      parseTree ["├── a -> -> b".toList] TreeNode.empty 0
        ≠ .panicked ("Unexpected error parsing symlink: ".toList ++ "a -> -> b".toList) := by
  refine ⟨by decide, by decide, by decide, by decide, by rfl, ?_⟩
  have h : parseTree ["├── a -> -> b".toList] TreeNode.empty 0
      = .returned [] (.mk [] [] [⟨"a".toList, "-> b".toList⟩]) := by rfl
  rw [h]
  exact fun h => Outcome.noConfusion h

/-- C4, amended. Symlink separator uniqueness: a line that classifies at the
level and whose text after the connector holds the separator at two
positions that do not overlap makes `parseTree` panic with the symlink
parsing error, whatever lines follow. -/
theorem parseTree_symlink_ambiguous (line : Str) (lines : List Str) (root : TreeNode)
    (level : Int) (filename : Str) (i j : Nat)
    (hlevel : (checkLineLevel line level).2 = true)
    (hname : entryName (checkLineLevel line level).1 = some filename)
    (hi : OccursAt filename arrow i) (hj : OccursAt filename arrow j)
    (hij : i + arrow.length ≤ j) :
    parseTree (line :: lines) root level
      = .panicked ("Unexpected error parsing symlink: ".toList ++ filename) := by
  rw [stripped_eq] at hname
  exact parseTree_badSymlink line lines root level filename
    (lineKind_badSymlink line level filename hlevel hname
      ((contains_iff filename).2 ⟨i, hi⟩) (split_length_ge_three filename i j hi hj hij))

/-- Witness for C4 amended: `"a -> b -> c"` holds the separator at 1 and 6. -/
theorem parseTree_symlink_ambiguous_witness :
    OccursAt "a -> b -> c".toList arrow 1 ∧ OccursAt "a -> b -> c".toList arrow 6 ∧
      parseTree ["└── a -> b -> c".toList, "    └── d".toList] TreeNode.empty 0
        = .panicked ("Unexpected error parsing symlink: ".toList ++ "a -> b -> c".toList) :=
  ⟨by decide, by decide,
    parseTree_symlink_ambiguous "└── a -> b -> c".toList ["    └── d".toList]
      TreeNode.empty 0 "a -> b -> c".toList 1 6 (by decide) (by decide) (by decide)
      (by decide) (by decide)⟩

/-! ## The connector does not matter -/

theorem noMarkerStart_connBranch (t : Str) : NoMarkerStart (connBranch ++ t) := by
  constructor <;> simp [hasPrefix, connBranch, markerBar, markerBlank, List.isPrefixOf]

theorem noMarkerStart_connLast (t : Str) : NoMarkerStart (connLast ++ t) := by
  constructor <;> simp [hasPrefix, connLast, markerBar, markerBlank, List.isPrefixOf]

theorem entryName_connBranch (t : Str) : entryName (connBranch ++ t) = some t := by
  simp [entryName, hasPrefix_append, trimPrefix_append]

theorem entryName_connLast (t : Str) : entryName (connLast ++ t) = some t := by
  have h : hasPrefix (connLast ++ t) connBranch = false := by
    simp [hasPrefix, connLast, connBranch, List.isPrefixOf]
  simp [entryName, h, hasPrefix_append, trimPrefix_append]

theorem lineKind_entry_line (ms : List Str) (conn t : Str) (level : Int)
    (hms : ∀ m ∈ ms, IsMarker m) (hconn : conn = connBranch ∨ conn = connLast) :
    lineKind (ms.flatten ++ conn ++ t) level =
      if (ms.length : Int) = level then
        if contains t arrow then
          match split t arrow with
          | [new, old] => .symlink new old
          | _ => .badSymlink t
        else .entry t
      else .stop := by
  have hnm : NoMarkerStart (conn ++ t) := by
    rcases hconn with rfl | rfl
    · exact noMarkerStart_connBranch t
    · exact noMarkerStart_connLast t
  have hen : entryName (conn ++ t) = some t := by
    rcases hconn with rfl | rfl
    · exact entryName_connBranch t
    · exact entryName_connLast t
  rw [List.append_assoc]
  by_cases hl : (ms.length : Int) = level
  · rw [lineKind_of_level _ _ (by rw [checkLineLevel_markers ms _ hms hnm]; simp [hl]),
      stripped_markers ms _ hms hnm, hen, if_pos hl]
  · rw [if_neg hl, lineKind_stop_iff, indentOf_markers ms _ hms hnm]
    exact hl

theorem indentOf_entry_line (ms : List Str) (conn t : Str)
    (hms : ∀ m ∈ ms, IsMarker m) (hconn : conn = connBranch ∨ conn = connLast) :
    indentOf (ms.flatten ++ conn ++ t) = ms.length := by
  have hnm : NoMarkerStart (conn ++ t) := by
    rcases hconn with rfl | rfl
    · exact noMarkerStart_connBranch t
    · exact noMarkerStart_connLast t
  rw [List.append_assoc, indentOf_markers ms _ hms hnm]

theorem ConnSwap.lineKind_eq {l l' : Str} (h : ConnSwap l l') (level : Int) :
    lineKind l level = lineKind l' level := by
  rcases h with rfl | ⟨ms, t, hms, ⟨rfl, rfl⟩ | ⟨rfl, rfl⟩⟩
  · rfl
  · rw [lineKind_entry_line ms _ t level hms (Or.inl rfl),
      lineKind_entry_line ms _ t level hms (Or.inr rfl)]
  · rw [lineKind_entry_line ms _ t level hms (Or.inl rfl),
      lineKind_entry_line ms _ t level hms (Or.inr rfl)]

theorem ConnSwap.indentOf_eq {l l' : Str} (h : ConnSwap l l') : indentOf l = indentOf l' := by
  rcases h with rfl | ⟨ms, t, hms, ⟨rfl, rfl⟩ | ⟨rfl, rfl⟩⟩
  · rfl
  · rw [indentOf_entry_line ms _ t hms (Or.inl rfl),
      indentOf_entry_line ms _ t hms (Or.inr rfl)]
  · rw [indentOf_entry_line ms _ t hms (Or.inl rfl),
      indentOf_entry_line ms _ t hms (Or.inr rfl)]

theorem ConnSwap.stripped_eq_of_noConnector {l l' : Str} (h : ConnSwap l l') (level : Int)
    (hk : lineKind l level = .noConnector) : stripped l = stripped l' := by
  rcases h with rfl | ⟨ms, t, hms, ⟨rfl, rfl⟩ | ⟨rfl, rfl⟩⟩
  · rfl
  · rw [lineKind_entry_line ms _ t level hms (Or.inl rfl)] at hk
    split at hk
    · split at hk
      · split at hk <;> cases hk
      · cases hk
    · cases hk
  · rw [lineKind_entry_line ms _ t level hms (Or.inr rfl)] at hk
    split at hk
    · split at hk
      · split at hk <;> cases hk
      · cases hk
    · cases hk

theorem lookahead_eq (lines : List Str) (level : Int) :
    lookahead lines level = decide (∃ next ∈ lines.head?, (indentOf next : Int) = level + 1) := by
  cases lines with
  | nil => simp [lookahead]
  | cons next more =>
    simp only [lookahead, List.head?_cons, Option.mem_def, Option.some.injEq, exists_eq_left']
    rw [checkLineLevel_eq]

theorem lookahead_related (R : Str → Str → Prop)
    (hi : ∀ l l', R l l' → indentOf l = indentOf l')
    {lines lines' : List Str} (h : List.Forall₂ R lines lines')
    (level : Int) : lookahead lines level = lookahead lines' level := by
  cases h with
  | nil => rfl
  | cons h1 _ =>
    simp only [lookahead]
    rw [checkLineLevel_eq, checkLineLevel_eq, hi _ _ h1]

theorem parseTree_related (R : Str → Str → Prop)
    (hkind : ∀ l l', R l l' → ∀ level, lineKind l level = lineKind l' level)
    (hi : ∀ l l', R l l' → indentOf l = indentOf l')
    (hs : ∀ l l', R l l' → ∀ level, lineKind l level = .noConnector →
      stripped l = stripped l') :
    ∀ (n : Nat) (lines lines' : List Str) (root : TreeNode) (level : Int),
      lines.length ≤ n → List.Forall₂ R lines lines' →
      Outcome.Alike (List.Forall₂ R)
        (parseTree lines root level) (parseTree lines' root level) := by
  intro n
  induction n with
  | zero =>
    intro lines lines' root level hlen h
    have h0 : lines = [] := List.length_eq_zero.1 (Nat.le_zero.1 hlen)
    subst h0
    cases h
    exact ⟨rfl, List.Forall₂.nil⟩
  | succ n ih =>
    intro lines lines' root level hlen h
    cases h with
    | nil => exact ⟨rfl, List.Forall₂.nil⟩
    | @cons l l' rest rest' h1 h2 =>
      have hrest : rest.length ≤ n := by
        simp only [List.length_cons] at hlen; omega
      rw [parseTree_cons, parseTree_cons, ← hkind _ _ h1 level]
      cases hk : lineKind l level with
      | stop => exact ⟨rfl, List.Forall₂.cons h1 h2⟩
      | noConnector =>
        show notAnElement (stripped l) = notAnElement (stripped l')
        rw [hs _ _ h1 level hk]
      | badSymlink filename => exact rfl
      | symlink new old => exact ih rest rest' _ level hrest h2
      | entry filename =>
        simp only
        rw [← lookahead_related R hi h2 level]
        by_cases hl : lookahead rest level = true
        · simp only [hl, ↓reduceIte]
          have hrec := ih rest rest' TreeNode.empty (level + 1) hrest h2
          cases h1o : parseTree rest TreeNode.empty (level + 1) with
          | returned r b =>
            cases h2o : parseTree rest' TreeNode.empty (level + 1) with
            | returned r' b' =>
              rw [h1o, h2o] at hrec
              obtain ⟨hb, hr⟩ := hrec
              subst hb
              have hrl : r.length ≤ n :=
                le_trans (parseTree_suffix _ _ _ _ _ h1o).length_le hrest
              exact ih r r' _ level hrl hr
            | panicked m' => rw [h1o, h2o] at hrec; exact hrec.elim
            | outOfFuel => rw [h1o, h2o] at hrec; exact hrec.elim
          | panicked m =>
            cases h2o : parseTree rest' TreeNode.empty (level + 1) with
            | returned r' b' => rw [h1o, h2o] at hrec; exact hrec.elim
            | panicked m' => rw [h1o, h2o] at hrec; exact hrec
            | outOfFuel => rw [h1o, h2o] at hrec; exact hrec.elim
          | outOfFuel => exact absurd h1o (parseTree_ne_outOfFuel _ _ _)
        · simp only [hl, Bool.false_eq_true, ↓reduceIte]
          exact ih rest rest' _ level hrest h2

/-- C3. Lookahead, not the connector, decides directory-ness: replacing in
any lines of the form markers ++ `"├── "` ++ text the connector by `"└── "`,
or the reverse, changes nothing in what `parseTree` does: it panics in the
same cases with the same message, builds the same node, and leaves the same
number of lines unconsumed. -/
theorem parseTree_connector_irrelevant (lines lines' : List Str) (root : TreeNode)
    (level : Int) (h : List.Forall₂ ConnSwap lines lines') :
    Outcome.Alike (fun r r' => r.length = r'.length)
      (parseTree lines root level) (parseTree lines' root level) := by
  have hmain := parseTree_related ConnSwap (fun _ _ h => h.lineKind_eq)
    (fun _ _ h => h.indentOf_eq) (fun _ _ h => h.stripped_eq_of_noConnector)
    lines.length lines lines' root level (le_refl _) h
  cases h1o : parseTree lines root level with
  | returned r b =>
    cases h2o : parseTree lines' root level with
    | returned r' b' =>
      rw [h1o, h2o] at hmain
      exact ⟨hmain.1, hmain.2.length_eq⟩
    | panicked m' => rw [h1o, h2o] at hmain; exact hmain.elim
    | outOfFuel => rw [h1o, h2o] at hmain; exact hmain.elim
  | panicked m =>
    cases h2o : parseTree lines' root level with
    | returned r' b' => rw [h1o, h2o] at hmain; exact hmain.elim
    | panicked m' => rw [h1o, h2o] at hmain; exact hmain
    | outOfFuel => rw [h1o, h2o] at hmain; exact hmain.elim
  | outOfFuel => exact absurd h1o (parseTree_ne_outOfFuel _ _ _)

/-- Witness for C3: a directory `a` with the entry `b`, once listed with
`"├── "` on both lines and once with `"└── "`. -/
theorem parseTree_connector_irrelevant_witness :
    List.Forall₂ ConnSwap ["├── a".toList, "│   ├── b".toList]
        ["└── a".toList, "│   └── b".toList] ∧
      Outcome.Alike (fun r r' => r.length = r'.length)
        (parseTree ["├── a".toList, "│   ├── b".toList] TreeNode.empty 0)
        (parseTree ["└── a".toList, "│   └── b".toList] TreeNode.empty 0) :=
  have h : List.Forall₂ ConnSwap ["├── a".toList, "│   ├── b".toList]
      ["└── a".toList, "│   └── b".toList] :=
    List.Forall₂.cons
      (Or.inr ⟨[], "a".toList, by simp, Or.inl ⟨rfl, rfl⟩⟩)
      (List.Forall₂.cons
        (Or.inr ⟨[markerBar], "b".toList, by simp [IsMarker], Or.inl ⟨rfl, rfl⟩⟩)
        List.Forall₂.nil)
  ⟨h, parseTree_connector_irrelevant _ _ TreeNode.empty 0 h⟩

/-! ## Lines behind the parsed listing -/

theorem parseTree_append_of_leftover :
    ∀ (n : Nat) (lines : List Str) (root : TreeNode) (level : Int) (r : List Str)
      (nd : TreeNode) (extra : List Str),
      lines.length ≤ n → parseTree lines root level = .returned r nd → r ≠ [] →
      parseTree (lines ++ extra) root level = .returned (r ++ extra) nd := by
  intro n
  induction n with
  | zero =>
    intro lines root level r nd extra hlen h hr
    have h0 : lines = [] := List.length_eq_zero.1 (Nat.le_zero.1 hlen)
    subst h0
    rw [parseTree_nil] at h
    cases h
    exact absurd rfl hr
  | succ n ih =>
    intro lines root level r nd extra hlen h hr
    cases lines with
    | nil =>
      rw [parseTree_nil] at h
      cases h
      exact absurd rfl hr
    | cons l rest =>
      have hrest : rest.length ≤ n := by
        simp only [List.length_cons] at hlen; omega
      rw [List.cons_append, parseTree_cons]
      rw [parseTree_cons] at h
      cases hk : lineKind l level with
      | stop =>
        rw [hk] at h
        cases h
        rfl
      | noConnector => rw [hk] at h; cases h
      | badSymlink filename => rw [hk] at h; cases h
      | symlink new old =>
        rw [hk] at h
        exact ih rest _ level r nd extra hrest h hr
      | entry filename =>
        rw [hk] at h
        simp only at h ⊢
        cases rest with
        | nil =>
          simp only [lookahead, Bool.false_eq_true, ↓reduceIte, parseTree_nil] at h
          cases h
          exact absurd rfl hr
        | cons next more =>
          have hla : lookahead (next :: more ++ extra) level
              = lookahead (next :: more) level := rfl
          rw [hla]
          by_cases hl : lookahead (next :: more) level = true
          · simp only [hl, ↓reduceIte] at h ⊢
            cases hrec : parseTree (next :: more) TreeNode.empty (level + 1) with
            | returned r1 b =>
              rw [hrec] at h
              simp only [Outcome.andThen] at h
              have hsuf := parseTree_suffix _ _ _ _ _ hrec
              have hr1 : r1 ≠ [] := by
                intro h0
                subst h0
                rw [parseTree_nil] at h
                cases h
                exact hr rfl
              rw [ih (next :: more) _ (level + 1) r1 b extra hrest hrec hr1]
              simp only [Outcome.andThen]
              exact ih r1 _ level r nd extra (le_trans hsuf.length_le hrest) h hr
            | panicked m => rw [hrec] at h; cases h
            | outOfFuel => rw [hrec] at h; cases h
          · simp only [hl, Bool.false_eq_true, ↓reduceIte] at h ⊢
            exact ih (next :: more) _ level r nd extra hrest h hr

theorem lineKind_ne_stop (line : Str) (level : Int) (h : lineKind line level ≠ .stop) :
    (indentOf line : Int) = level := by
  by_contra hne
  exact h ((lineKind_stop_iff line level).2 hne)

theorem parseTree_single_stop (x : Str) (root : TreeNode) (level : Int)
    (h : (indentOf x : Int) ≠ level) : parseTree [x] root level = .returned [x] root :=
  parseTree_stop x [] root level ((lineKind_stop_iff x level).2 h)

theorem lookahead_single (x : Str) (level : Int) :
    lookahead [x] level = decide ((indentOf x : Int) = level + 1) := by
  simp only [lookahead]
  rw [checkLineLevel_eq]


theorem parseTree_trailing :
    ∀ (n : Nat) (lines : List Str) (root : TreeNode) (level : Int) (nd : TreeNode),
      lines.length ≤ n → parseTree lines root level = .returned [] nd →
      (∀ last, lines.getLast? = some last → level ≤ (indentOf last : Int)) ∧
      ∀ x, (lines = [] → (indentOf x : Int) ≠ level) →
        (∀ last, lines.getLast? = some last → indentOf last + 1 < indentOf x) →
        parseTree (lines ++ [x]) root level = .returned [x] nd := by
  intro n
  induction n with
  | zero =>
    intro lines root level nd hlen h
    have h0 : lines = [] := List.length_eq_zero.1 (Nat.le_zero.1 hlen)
    subst h0
    rw [parseTree_nil] at h
    cases h
    refine ⟨fun last hl => by simp at hl, fun x hx _ => ?_⟩
    exact parseTree_single_stop x _ level (hx rfl)
  | succ n ih =>
    intro lines root level nd hlen h
    cases lines with
    | nil =>
      rw [parseTree_nil] at h
      cases h
      refine ⟨fun last hl => by simp at hl, fun x hx _ => ?_⟩
      exact parseTree_single_stop x _ level (hx rfl)
    | cons l rest =>
      have hrest : rest.length ≤ n := by
        simp only [List.length_cons] at hlen; omega
      rw [parseTree_cons] at h
      have hlev : (indentOf l : Int) = level := by
        apply lineKind_ne_stop
        intro hk
        rw [hk] at h
        cases h
      -- the lines behind `l` are parsed at the same level into `root'`
      have step : ∀ root', parseTree rest root' level = .returned [] nd →
          (∀ last, (l :: rest).getLast? = some last → level ≤ (indentOf last : Int)) ∧
          ∀ x, (∀ last, (l :: rest).getLast? = some last → indentOf last + 1 < indentOf x) →
            parseTree (rest ++ [x]) root' level = .returned [x] nd ∧
            lookahead (rest ++ [x]) level = lookahead rest level := by
        intro root' hp
        cases rest with
        | nil =>
          rw [parseTree_nil] at hp
          cases hp
          refine ⟨fun last hl => ?_, fun x hx => ?_⟩
          · simp only [List.getLast?_singleton, Option.some.injEq] at hl
            subst hl
            omega
          · have hx' := hx l (by simp)
            refine ⟨parseTree_single_stop x _ level (by omega), ?_⟩
            rw [List.nil_append, lookahead_single]
            simp only [lookahead, decide_eq_false_iff_not]
            omega
        | cons y ys =>
          obtain ⟨p1, p2⟩ := ih (y :: ys) root' level nd hrest hp
          refine ⟨fun last hl => p1 last (by rwa [List.getLast?_cons_cons] at hl),
            fun x hx => ⟨p2 x (fun h0 => by cases h0)
              (fun last hl => hx last (by rwa [List.getLast?_cons_cons])), rfl⟩⟩
      cases hk : lineKind l level with
      | stop => rw [hk] at h; cases h
      | noConnector => rw [hk] at h; cases h
      | badSymlink filename => rw [hk] at h; cases h
      | symlink new old =>
        rw [hk] at h
        obtain ⟨p1, p2⟩ := step _ h
        refine ⟨p1, fun x _ hx => ?_⟩
        rw [List.cons_append, parseTree_cons, hk]
        exact (p2 x hx).1
      | entry filename =>
        rw [hk] at h
        simp only at h
        by_cases hl : lookahead rest level = true
        · simp only [hl, ↓reduceIte] at h
          cases hrec : parseTree rest TreeNode.empty (level + 1) with
          | returned r1 b =>
            rw [hrec] at h
            simp only [Outcome.andThen] at h
            have hsuf := parseTree_suffix _ _ _ _ _ hrec
            have hrne : rest ≠ [] := by
              intro h0
              subst h0
              simp [lookahead] at hl
            have hlast : (l :: rest).getLast? = rest.getLast? := by
              cases rest with
              | nil => exact absurd rfl hrne
              | cons y ys => exact List.getLast?_cons_cons
            cases r1 with
            | nil =>
              rw [parseTree_nil] at h
              cases h
              obtain ⟨p1, p2⟩ := ih rest _ (level + 1) b hrest hrec
              refine ⟨fun last hla => ?_, fun x _ hx => ?_⟩
              · have := p1 last (by rwa [hlast] at hla)
                omega
              · rw [List.cons_append, parseTree_cons, hk]
                have hla2 : lookahead (rest ++ [x]) level = lookahead rest level := by
                  cases rest with
                  | nil => exact absurd rfl hrne
                  | cons y ys => rfl
                simp only [hla2, hl, ↓reduceIte]
                rw [p2 x (fun h0 => absurd h0 hrne)
                  (fun last hla => hx last (by rwa [hlast]))]
                simp only [Outcome.andThen]
                apply parseTree_single_stop
                obtain ⟨last, hlastv⟩ : ∃ last, rest.getLast? = some last := by
                  cases hg : rest.getLast? with
                  | none => exact absurd (List.getLast?_eq_none_iff.1 hg) hrne
                  | some last => exact ⟨last, rfl⟩
                have h1 := p1 last hlastv
                have h2 := hx last (by rwa [hlast])
                omega
            | cons y ys =>
              have hr1len : (y :: ys).length ≤ n := le_trans hsuf.length_le hrest
              obtain ⟨p1, p2⟩ := ih (y :: ys) _ level nd hr1len h
              have hlast2 : rest.getLast? = (y :: ys).getLast? := by
                obtain ⟨c, hc⟩ := hsuf
                rw [← hc]
                exact List.getLast?_append_of_ne_nil c (by simp)
              refine ⟨fun last hla => p1 last (by rwa [hlast, hlast2] at hla),
                fun x _ hx => ?_⟩
              rw [List.cons_append, parseTree_cons, hk]
              have hla2 : lookahead (rest ++ [x]) level = lookahead rest level := by
                cases rest with
                | nil => exact absurd rfl hrne
                | cons y ys => rfl
              simp only [hla2, hl, ↓reduceIte]
              rw [parseTree_append_of_leftover rest.length rest _ (level + 1) (y :: ys) b [x]
                (le_refl _) hrec (by simp)]
              simp only [Outcome.andThen]
              exact p2 x (fun h0 => by cases h0)
                (fun last hla => hx last (by rwa [hlast, hlast2]))
          | panicked m => rw [hrec] at h; cases h
          | outOfFuel => rw [hrec] at h; cases h
        · simp only [hl, Bool.false_eq_true, ↓reduceIte] at h
          obtain ⟨p1, p2⟩ := step _ h
          refine ⟨p1, fun x _ hx => ?_⟩
          rw [List.cons_append, parseTree_cons, hk]
          simp only [(p2 x hx).2, hl, Bool.false_eq_true, ↓reduceIte]
          exact (p2 x hx).1

/-- C5. Trailing-input detection: when `parseTree` consumes a listing `L`
completely at level 0, and `x` is a line with at least one leading
indentation marker and more than one marker more than the last line of `L`,
then on `L ++ [x]` it returns exactly `[x]`, a non-empty leftover, and builds
the same node as for `L` alone. -/
theorem parseTree_trailing_input (L : List Str) (nd : TreeNode) (x : Str)
    (hL : parseTree L TreeNode.empty 0 = .returned [] nd)
    (hx : 1 ≤ indentOf x)
    (hlast : ∀ last, L.getLast? = some last → indentOf last + 1 < indentOf x) :
    parseTree (L ++ [x]) TreeNode.empty 0 = .returned [x] nd ∧ 0 < [x].length := by
  refine ⟨?_, by simp⟩
  refine (parseTree_trailing L.length L TreeNode.empty 0 nd (le_refl _) hL).2 x ?_ hlast
  intro _
  omega

/-- Witness for C5: a directory `a` holding `b`, then a line with three
indentation markers. -/
theorem parseTree_trailing_input_witness :
    parseTree ["├── a".toList, "│   └── b".toList] TreeNode.empty 0
        = .returned [] (.mk [("a".toList, .mk [] ["b".toList] [])] [] []) ∧
      parseTree (["├── a".toList, "│   └── b".toList] ++ ["            c".toList])
          TreeNode.empty 0
        = .returned ["            c".toList]
            (.mk [("a".toList, .mk [] ["b".toList] [])] [] []) :=
  ⟨by rfl,
    (parseTree_trailing_input ["├── a".toList, "│   └── b".toList]
      (.mk [("a".toList, .mk [] ["b".toList] [])] [] []) "            c".toList
      (by rfl) (by decide)
      (by
        intro last hl
        simp only [List.getLast?_cons_cons, List.getLast?_singleton, Option.some.injEq] at hl
        subst hl
        decide)).1⟩


/-! ## Parsing a listing -/

theorem entryLine_eq (ms : List Str) (isLast : Bool) (text : Str) :
    ∃ conn, (conn = connBranch ∨ conn = connLast) ∧
      entryLine ms.flatten isLast text = ms.flatten ++ conn ++ text := by
  cases isLast
  · exact ⟨connBranch, Or.inl rfl, rfl⟩
  · exact ⟨connLast, Or.inr rfl, rfl⟩

theorem indentOf_entryLine (ms : List Str) (hms : ∀ m ∈ ms, IsMarker m) (isLast : Bool)
    (text : Str) : indentOf (entryLine ms.flatten isLast text) = ms.length := by
  obtain ⟨conn, hconn, heq⟩ := entryLine_eq ms isLast text
  rw [heq, indentOf_entry_line ms conn text hms hconn]

theorem lineKind_entryLine (ms : List Str) (hms : ∀ m ∈ ms, IsMarker m) (isLast : Bool)
    (text : Str) :
    lineKind (entryLine ms.flatten isLast text) (ms.length : Int) =
      if contains text arrow then
        match split text arrow with
        | [new, old] => .symlink new old
        | _ => .badSymlink text
      else .entry text := by
  obtain ⟨conn, hconn, heq⟩ := entryLine_eq ms isLast text
  rw [heq, lineKind_entry_line ms conn text _ hms hconn, if_pos rfl]

theorem childIndent_eq (ms : List Str) (hms : ∀ m ∈ ms, IsMarker m) (isLast : Bool) :
    ∃ ms' : List Str, (∀ m ∈ ms', IsMarker m) ∧ childIndent ms.flatten isLast = ms'.flatten ∧
      ms'.length = ms.length + 1 := by
  refine ⟨ms ++ [if isLast then markerBlank else markerBar], ?_, ?_, by simp⟩
  · intro m hm
    rcases List.mem_append.1 hm with h | h
    · exact hms m h
    · rw [List.mem_singleton] at h
      subst h
      cases isLast
      · exact Or.inl rfl
      · exact Or.inr rfl
  · simp [childIndent]

theorem headAtMost_cons_entryLine (ms : List Str) (hms : ∀ m ∈ ms, IsMarker m)
    (isLast : Bool) (text : Str) (lines : List Str) :
    HeadAtMost ms.length (entryLine ms.flatten isLast text :: lines) := by
  intro next hn
  simp only [List.head?_cons, Option.some.injEq] at hn
  subst hn
  rw [indentOf_entryLine ms hms]

theorem headAtMost_leafLines (ms : List Str) (hms : ∀ m ∈ ms, IsMarker m)
    (texts : List Str) (more : Bool) (after : List Str)
    (h : HeadAtMost ms.length after) :
    HeadAtMost ms.length (leafLines ms.flatten texts more ++ after) := by
  cases texts with
  | nil => exact h
  | cons t rest => exact headAtMost_cons_entryLine ms hms _ _ _

theorem headAtMost_serializeDirs (ms : List Str) (hms : ∀ m ∈ ms, IsMarker m)
    (dirs : List (Str × TreeNode)) (more : Bool) (after : List Str)
    (h : HeadAtMost ms.length after) :
    HeadAtMost ms.length (serializeDirs ms.flatten dirs more ++ after) := by
  cases dirs with
  | nil =>
    rw [serializeDirs]
    exact h
  | cons p rest =>
    obtain ⟨name, child⟩ := p
    rw [serializeDirs]
    exact headAtMost_cons_entryLine ms hms _ _ _

theorem lookahead_of_headAtMost (d : Nat) (lines : List Str) (h : HeadAtMost d lines) :
    lookahead lines (d : Int) = false := by
  cases lines with
  | nil => rfl
  | cons next more =>
    have := h next rfl
    simp only [lookahead]
    rw [checkLineLevel_eq]
    simp only [decide_eq_false_iff_not]
    omega

theorem parseTree_of_headAtMost (d : Nat) (lines : List Str) (root : TreeNode)
    (h : HeadAtMost d lines) :
    parseTree lines root ((d : Int) + 1) = .returned lines root := by
  cases lines with
  | nil => rfl
  | cons next more =>
    have := h next rfl
    apply parseTree_stop
    rw [lineKind_stop_iff]
    omega

theorem parseTree_leafLines_files (ms : List Str) (hms : ∀ m ∈ ms, IsMarker m)
    (more : Bool) (after : List Str) (hafter : HeadAtMost ms.length after) :
    ∀ (files : List Str) (root : TreeNode), (∀ f ∈ files, contains f arrow = false) →
      parseTree (leafLines ms.flatten files more ++ after) root ms.length
        = parseTree after (files.foldl addFile root) ms.length := by
  intro files
  induction files with
  | nil => intro root _; rfl
  | cons f rest ih =>
    intro root hf
    have hf0 : contains f arrow = false := hf f (List.mem_cons_self _ _)
    have hk : lineKind (entryLine ms.flatten (rest.isEmpty && !more) f) (ms.length : Int)
        = .entry f := by
      rw [lineKind_entryLine ms hms, hf0]
      rfl
    rw [leafLines, List.cons_append,
      parseTree_file _ _ root _ f hk
        (lookahead_of_headAtMost _ _ (headAtMost_leafLines ms hms rest more after hafter)),
      ih _ (fun g hg => hf g (List.mem_cons_of_mem _ hg))]
    rfl

theorem parseTree_leafLines_links (ms : List Str) (hms : ∀ m ∈ ms, IsMarker m)
    (more : Bool) (after : List Str) :
    ∀ (links : List Symlink) (root : TreeNode), (∀ s ∈ links, UniqueArrow s) →
      parseTree (leafLines ms.flatten (links.map symlinkText) more ++ after) root ms.length
        = parseTree after (links.foldl addSymlink root) ms.length := by
  intro links
  induction links with
  | nil => intro root _; rfl
  | cons s rest ih =>
    intro root hs
    have hs0 : UniqueArrow s := hs s (List.mem_cons_self _ _)
    have hocc : OccursAt (symlinkText s) arrow s.New.length := by
      simp [OccursAt, symlinkText, List.append_assoc, hasPrefix_append]
    have hk : lineKind (entryLine ms.flatten ((rest.map symlinkText).isEmpty && !more)
        (symlinkText s)) (ms.length : Int) = .symlink s.New s.Old := by
      rw [lineKind_entryLine ms hms, (contains_iff _).2 ⟨_, hocc⟩,
        show split (symlinkText s) arrow = [s.New, s.Old] from split_unique s.New s.Old hs0]
      rfl
    rw [List.map_cons, leafLines, List.cons_append, parseTree_symlink _ _ root _ _ _ hk,
      ih _ (fun g hg => hs g (List.mem_cons_of_mem _ hg))]
    rfl

theorem mapSet_of_not_mem (dirs : List (Str × TreeNode)) (k : Str) (v : TreeNode)
    (h : k ∉ dirs.map Prod.fst) : mapSet dirs k v = dirs ++ [(k, v)] := by
  induction dirs with
  | nil => rfl
  | cons p rest ih =>
    obtain ⟨k', v'⟩ := p
    simp only [List.map_cons, List.mem_cons, not_or] at h
    rw [mapSet, if_neg (fun e => h.1 e.symm), ih h.2]
    rfl

theorem foldl_setDirectory (dirs : List (Str × TreeNode)) :
    ∀ (pre : List (Str × TreeNode)) (files : List Str) (links : List Symlink),
      ((pre ++ dirs).map Prod.fst).Nodup →
      dirs.foldl (fun r p => setDirectory r p.1 p.2) (.mk pre files links)
        = .mk (pre ++ dirs) files links := by
  induction dirs with
  | nil => intro pre files links _; simp
  | cons p rest ih =>
    intro pre files links hnd
    obtain ⟨k, v⟩ := p
    have hk : k ∉ pre.map Prod.fst := by
      intro hmem
      rw [List.map_append, List.nodup_append] at hnd
      exact hnd.2.2 hmem (List.mem_map.2 ⟨(k, v), List.mem_cons_self _ _, rfl⟩)
    rw [List.foldl_cons]
    show List.foldl _ (TreeNode.mk (mapSet pre k v) files links) rest = _
    rw [mapSet_of_not_mem pre k v hk, ih _ files links (by simpa using hnd)]
    simp

theorem foldl_addFile (files : List Str) :
    ∀ (dirs : List (Str × TreeNode)) (pre : List Str) (links : List Symlink),
      files.foldl addFile (.mk dirs pre links) = .mk dirs (pre ++ files) links := by
  induction files with
  | nil => intro dirs pre links; simp
  | cons f rest ih =>
    intro dirs pre links
    rw [List.foldl_cons]
    show List.foldl addFile (TreeNode.mk dirs (pre ++ [f]) links) rest = _
    rw [ih]
    simp

theorem foldl_addSymlink (links : List Symlink) :
    ∀ (dirs : List (Str × TreeNode)) (files : List Str) (pre : List Symlink),
      links.foldl addSymlink (.mk dirs files pre) = .mk dirs files (pre ++ links) := by
  induction links with
  | nil => intro dirs files pre; simp
  | cons s rest ih =>
    intro dirs files pre
    rw [List.foldl_cons]
    show List.foldl addSymlink (TreeNode.mk dirs files (pre ++ [s])) rest = _
    rw [ih]
    simp


theorem serialize_head (indent : Str) (t : TreeNode) (h : t.HasEntry) :
    ∃ (isLast : Bool) (text : Str) (more : List Str),
      serialize indent t = entryLine indent isLast text :: more := by
  obtain ⟨dirs, files, links⟩ := t
  rw [serialize]
  cases dirs with
  | cons p rest =>
    obtain ⟨name, child⟩ := p
    rw [serializeDirs]
    exact ⟨_, _, _, rfl⟩
  | nil =>
    rw [serializeDirs]
    cases files with
    | cons f rest => exact ⟨_, _, _, rfl⟩
    | nil =>
      cases links with
      | cons s rest => exact ⟨_, _, _, rfl⟩
      | nil =>
        rcases h with h | h | h <;> exact absurd rfl h

theorem merge_empty (t : TreeNode) (h : Listable t) :
    t.Symlinks.foldl addSymlink (t.Files.foldl addFile
      (t.Directories.foldl (fun r p => setDirectory r p.1 p.2) TreeNode.empty)) = t := by
  obtain ⟨dirs, files, links⟩ := t
  rw [Listable] at h
  show List.foldl addSymlink (List.foldl addFile
    (List.foldl (fun r p => setDirectory r p.1 p.2) (TreeNode.mk [] [] []) dirs) files) links = _
  rw [foldl_setDirectory dirs [] [] [] (by simpa using h.2.1), foldl_addFile, foldl_addSymlink]
  simp

mutual
theorem parseTree_serialize :
    ∀ (t : TreeNode), Listable t → ∀ (ms : List Str), (∀ m ∈ ms, IsMarker m) →
      ∀ (after : List Str) (root : TreeNode), HeadAtMost ms.length after →
      parseTree (serialize ms.flatten t ++ after) root ms.length
        = parseTree after (t.Symlinks.foldl addSymlink (t.Files.foldl addFile
            (t.Directories.foldl (fun r p => setDirectory r p.1 p.2) root))) ms.length
  | .mk dirs files links, h, ms, hms, after, root, hafter => by
    rw [Listable] at h
    obtain ⟨hd, _, hf, hl⟩ := h
    have h2 : HeadAtMost ms.length (leafLines ms.flatten (links.map symlinkText) false ++ after) :=
      headAtMost_leafLines ms hms _ _ _ hafter
    have h1 : HeadAtMost ms.length (leafLines ms.flatten files (!links.isEmpty)
        ++ (leafLines ms.flatten (links.map symlinkText) false ++ after)) :=
      headAtMost_leafLines ms hms _ _ _ h2
    rw [serialize, List.append_assoc, List.append_assoc,
      parseTree_serializeDirs dirs hd ms hms _ _ root h1,
      parseTree_leafLines_files ms hms _ _ h2 files _ hf,
      parseTree_leafLines_links ms hms _ _ links _ hl]
    rfl
theorem parseTree_serializeDirs :
    ∀ (dirs : List (Str × TreeNode)), ListableDirs dirs →
      ∀ (ms : List Str), (∀ m ∈ ms, IsMarker m) →
      ∀ (more : Bool) (after : List Str) (root : TreeNode), HeadAtMost ms.length after →
      parseTree (serializeDirs ms.flatten dirs more ++ after) root ms.length
        = parseTree after (dirs.foldl (fun r p => setDirectory r p.1 p.2) root) ms.length
  | [], _, ms, hms, more, after, root, hafter => by
    rw [serializeDirs]
    rfl
  | (name, child) :: rest, h, ms, hms, more, after, root, hafter => by
    rw [ListableDirs] at h
    obtain ⟨hname, hentry, hchild, hrest⟩ := h
    obtain ⟨ms', hms', hci, hlen⟩ := childIndent_eq ms hms (rest.isEmpty && !more)
    have hk : lineKind (entryLine ms.flatten (rest.isEmpty && !more) name) (ms.length : Int)
        = .entry name := by
      rw [lineKind_entryLine ms hms, hname]
      rfl
    have hafter' : HeadAtMost ms.length (serializeDirs ms.flatten rest more ++ after) :=
      headAtMost_serializeDirs ms hms rest more after hafter
    have hafter'' : HeadAtMost ms'.length (serializeDirs ms.flatten rest more ++ after) :=
      fun next hn => le_trans (hafter' next hn) (by omega)
    have hlev : ((ms.length : Int) + 1) = (ms'.length : Int) := by
      rw [hlen]; push_cast; rfl
    obtain ⟨b, text, tl, hhead⟩ :=
      serialize_head (childIndent ms.flatten (rest.isEmpty && !more)) child hentry
    have hla : lookahead (serialize (childIndent ms.flatten (rest.isEmpty && !more)) child
        ++ (serializeDirs ms.flatten rest more ++ after)) (ms.length : Int) = true := by
      rw [hhead, hci, List.cons_append]
      simp only [lookahead]
      rw [checkLineLevel_eq, indentOf_entryLine ms' hms', hlev]
      simp
    have hinner := parseTree_serialize child hchild ms' hms'
      (serializeDirs ms.flatten rest more ++ after) TreeNode.empty hafter''
    rw [serializeDirs, List.cons_append, List.append_assoc,
      parseTree_directory _ _ root _ name hk hla,
      hlev, hci, hinner, merge_empty child hchild, ← hlev,
      parseTree_of_headAtMost _ _ _ hafter']
    simp only [Outcome.andThen]
    rw [parseTree_serializeDirs rest hrest ms hms more after _ hafter]
    rfl
end


theorem uniqueArrow_of_bounded (s : Symlink)
    (h : ∀ i, i < (symlinkText s).length → OccursAt (symlinkText s) arrow i → i = s.New.length) :
    UniqueArrow s := by
  intro i hi
  have := occursAt_length _ i hi
  exact h i (by omega) hi

theorem Restyle.lineKind_same {l l' : Str} (h : Restyle l l') (level : Int) :
    lineKind l level = lineKind l' level := by
  obtain ⟨ms, ms', conn, conn', t, hms, hms', hlen, hc, hc', rfl, rfl⟩ := h
  rw [lineKind_entry_line ms conn t level hms hc,
    lineKind_entry_line ms' conn' t level hms' hc', hlen]

theorem Restyle.indentOf_same {l l' : Str} (h : Restyle l l') : indentOf l = indentOf l' := by
  obtain ⟨ms, ms', conn, conn', t, hms, hms', hlen, hc, hc', rfl, rfl⟩ := h
  rw [indentOf_entry_line ms conn t hms hc, indentOf_entry_line ms' conn' t hms' hc', hlen]

theorem Restyle.ne_noConnector {l l' : Str} (h : Restyle l l') (level : Int) :
    lineKind l level ≠ .noConnector := by
  obtain ⟨ms, ms', conn, conn', t, hms, hms', hlen, hc, hc', rfl, rfl⟩ := h
  rw [lineKind_entry_line ms conn t level hms hc]
  intro hk
  split at hk
  · split at hk
    · split at hk <;> cases hk
    · cases hk
  · cases hk

/-- C2. Round trip: for every tree whose subdirectories all have an entry,
whose file and directory names do not contain `" -> "` and whose symlink
texts `New -> Old` hold `" -> "` at exactly one position, `parseTree` on the
listing of the tree, with an empty root at level 0, consumes every line and
builds the tree itself; and so it does on every listing that differs from
this one only in the choice of indentation markers and connectors. -/
theorem parseTree_serialize_roundtrip (t : TreeNode) (h : Listable t) :
    parseTree (serialize [] t) TreeNode.empty 0 = .returned [] t ∧
      ∀ lines, List.Forall₂ Restyle (serialize [] t) lines →
        parseTree lines TreeNode.empty 0 = .returned [] t := by
  have hmain := parseTree_serialize t h [] (by simp) [] TreeNode.empty
    (by intro next hn; simp at hn)
  simp only [List.flatten_nil, List.append_nil, List.length_nil, Nat.cast_zero] at hmain
  rw [merge_empty t h, parseTree_nil] at hmain
  refine ⟨hmain, fun lines hl => ?_⟩
  have hrel := parseTree_related Restyle (fun _ _ h => h.lineKind_same)
    (fun _ _ h => h.indentOf_same) (fun _ _ h level hk => absurd hk (h.ne_noConnector level))
    _ (serialize [] t) lines TreeNode.empty 0 (le_refl _) hl
  rw [hmain] at hrel
  cases hp : parseTree lines TreeNode.empty 0 with
  | returned r nd =>
    rw [hp] at hrel
    obtain ⟨hnd, hr⟩ := hrel
    cases hr
    rw [hnd]
  | panicked m => rw [hp] at hrel; exact hrel.elim
  | outOfFuel => rw [hp] at hrel; exact hrel.elim

/-- Witness for C2: files, subdirectories and symlinks at three depths. -/
theorem parseTree_serialize_roundtrip_witness :
    serialize [] (.mk
        [("a".toList, .mk [("s".toList, .mk [] ["q".toList] [⟨"r".toList, "q".toList⟩])]
            ["b".toList] [⟨"c".toList, "b".toList⟩]),
          ("e".toList, .mk [] ["f".toList] [])]
        ["d".toList] [⟨"l".toList, "a/b".toList⟩])
      = ["├── a".toList, "│   ├── s".toList, "│   │   ├── q".toList,
          "│   │   └── r -> q".toList, "│   ├── b".toList, "│   └── c -> b".toList,
          "├── e".toList, "│   └── f".toList, "├── d".toList, "└── l -> a/b".toList] ∧
    parseTree (serialize [] (.mk
        [("a".toList, .mk [("s".toList, .mk [] ["q".toList] [⟨"r".toList, "q".toList⟩])]
            ["b".toList] [⟨"c".toList, "b".toList⟩]),
          ("e".toList, .mk [] ["f".toList] [])]
        ["d".toList] [⟨"l".toList, "a/b".toList⟩])) TreeNode.empty 0
      = .returned [] (.mk
        [("a".toList, .mk [("s".toList, .mk [] ["q".toList] [⟨"r".toList, "q".toList⟩])]
            ["b".toList] [⟨"c".toList, "b".toList⟩]),
          ("e".toList, .mk [] ["f".toList] [])]
        ["d".toList] [⟨"l".toList, "a/b".toList⟩]) :=
  ⟨by decide, (parseTree_serialize_roundtrip _ (by
    simp only [Listable, ListableDirs, TreeNode.HasEntry, TreeNode.Directories, TreeNode.Files,
      TreeNode.Symlinks, List.mem_cons, List.mem_singleton, List.not_mem_nil, or_false,
      forall_eq_or_imp, forall_eq, false_implies, implies_true, and_true, true_and]
    refine ⟨⟨by decide, by simp, ⟨⟨by decide, by simp, by simp, by decide, ?_⟩, by simp,
      by decide, ?_⟩, by decide, by simp, by simp, by decide⟩, by decide, by decide, ?_⟩
    all_goals exact uniqueArrow_of_bounded _ (by decide))).1⟩

/-! ## Classification, dedent and the directory step -/

/-- C15. `checkLineLevel` splits a line at the first non-marker: the line is
a concatenation of indentation markers followed by the returned remainder,
the remainder begins with neither marker, the boolean tells whether the
number of removed markers equals the level, and the remainder is the same
at every level. -/
theorem checkLineLevel_split (line : Str) (level : Int) :
    ∃ ms : List Str, (∀ m ∈ ms, m = markerBar ∨ m = markerBlank) ∧
      line = ms.flatten ++ (checkLineLevel line level).1 ∧
      hasPrefix (checkLineLevel line level).1 markerBar = false ∧
      hasPrefix (checkLineLevel line level).1 markerBlank = false ∧
      ((checkLineLevel line level).2 = true ↔ (ms.length : Int) = level) ∧
      ∀ level' : Int, (checkLineLevel line level').1 = (checkLineLevel line level).1 := by
  obtain ⟨ms, tail, hms, ht, rfl⟩ := exists_markers line
  refine ⟨ms, hms, ?_, ?_, ?_, ?_, ?_⟩
  · rw [checkLineLevel_markers ms tail hms ht]
  · rw [checkLineLevel_markers ms tail hms ht]; exact ht.1
  · rw [checkLineLevel_markers ms tail hms ht]; exact ht.2
  · rw [checkLineLevel_markers ms tail hms ht]; simp
  · intro level'
    rw [checkLineLevel_markers ms tail hms ht, checkLineLevel_markers ms tail hms ht]

/-- C16. Dedent returns control untouched: on the empty list, and on a list
whose first line does not classify at the level, `parseTree` returns the
list unchanged and the node unchanged, without failing. -/
theorem parseTree_dedent (lines : List Str) (root : TreeNode) (level : Int)
    (h : lines = [] ∨ ∃ l rest, lines = l :: rest ∧ (checkLineLevel l level).2 = false) :
    parseTree lines root level = .returned lines root := by
  rcases h with rfl | ⟨l, rest, rfl, hl⟩
  · rfl
  · apply parseTree_stop
    rw [lineKind_stop_iff]
    intro heq
    rw [(hasLevel_iff l level).2 heq] at hl
    cases hl

/-- Witness for C16: a line of level 0 met at level 1. -/
theorem parseTree_dedent_witness :
    parseTree ["└── b".toList, "    └── c".toList]
        (.mk [] ["a".toList] []) 1
      = .returned ["└── b".toList, "    └── c".toList] (.mk [] ["a".toList] []) :=
  parseTree_dedent ["└── b".toList, "    └── c".toList] (.mk [] ["a".toList] []) 1
    (Or.inr ⟨"└── b".toList, ["    └── c".toList], rfl, by decide⟩)

/-- C17. Directory step: a non-symlink entry line with name `n` at level
`d`, followed by lines of which the first classifies at level `d+1`, parses
the following lines one level deeper into an empty node, stores that node
under `n`, and goes on at level `d` with the lines the deeper call left. -/
theorem parseTree_directory_step (line : Str) (rest : List Str) (node : TreeNode)
    (d : Int) (n : Str) (hlevel : (checkLineLevel line d).2 = true)
    (hname : entryName (checkLineLevel line d).1 = some n)
    (hc : contains n arrow = false)
    (hnext : ∃ next more, rest = next :: more ∧ (checkLineLevel next (d + 1)).2 = true) :
    parseTree (line :: rest) node d
        = (parseTree rest TreeNode.empty (d + 1)).andThen
            (fun rest' branch => parseTree rest' (setDirectory node n branch) d) ∧
      ∀ rest' branch, parseTree rest TreeNode.empty (d + 1) = .returned rest' branch →
        parseTree (line :: rest) node d = parseTree rest' (setDirectory node n branch) d := by
  rw [stripped_eq] at hname
  have hla : lookahead rest d = true := by
    obtain ⟨next, more, rfl, hn⟩ := hnext
    exact hn
  have hstep := parseTree_directory line rest node d n
    (lineKind_entry line d n hlevel hname hc) hla
  refine ⟨hstep, fun rest' branch hrec => ?_⟩
  rw [hstep, hrec]
  rfl

/-- Witness for C17: directory `a` with the entry `b`, then the sibling `c`. -/
theorem parseTree_directory_step_witness :
    parseTree ["├── a".toList, "│   └── b".toList, "└── c".toList] TreeNode.empty 0
      = parseTree ["└── c".toList]
          (setDirectory TreeNode.empty "a".toList (.mk [] ["b".toList] [])) 0 :=
  (parseTree_directory_step "├── a".toList ["│   └── b".toList, "└── c".toList]
    TreeNode.empty 0 "a".toList (by decide) (by decide) (by decide)
    ⟨"│   └── b".toList, ["└── c".toList], rfl, by decide⟩).2
    ["└── c".toList] (.mk [] ["b".toList] []) (by rfl)

/-! ## Termination -/

theorem checkLineLevelLoop_enough (line : Str) (fuel c : Nat) (h : line.length ≤ fuel) :
    ∃ res, checkLineLevelLoop fuel line c = some res := by
  obtain ⟨ms, tail, hms, ht, rfl⟩ := exists_markers line
  exact ⟨_, checkLineLevelLoop_markers ms tail hms ht fuel c h⟩

theorem trimPrefix_marker_length (line m : Str) (hm : IsMarker m)
    (h : hasPrefix line m = true) : (trimPrefix line m).length + 4 = line.length := by
  obtain ⟨t, rfl⟩ := (hasPrefix_iff _ _).1 h
  rw [trimPrefix_append, List.length_append, marker_length m hm]
  omega

/-- C18. Termination: `parseTree` ends, by returning or by panicking, on
every list of lines: a fuel of one unit per line is never used up, more fuel
changes nothing, and the returned list is no longer than the input;
`checkLineLevel` ends with a fuel of one unit per character, each strip
taking four characters off the line. -/
theorem parseTree_terminates (lines : List Str) (root : TreeNode) (level : Int) :
    parseTree lines root level ≠ .outOfFuel ∧
      (∀ fuel, lines.length ≤ fuel →
        parseTreeLoop fuel lines root level = parseTree lines root level) ∧
      (∀ r n, parseTree lines root level = .returned r n → r.length ≤ lines.length) ∧
      (∀ (line : Str) (fuel c : Nat), line.length ≤ fuel →
        ∃ res, checkLineLevelLoop fuel line c = some res) ∧
      ∀ (line m : Str), (m = markerBar ∨ m = markerBlank) → hasPrefix line m = true →
        (trimPrefix line m).length < line.length := by
  refine ⟨parseTree_ne_outOfFuel lines root level,
    fun fuel h => parseTreeLoop_eq_parseTree fuel lines root level h,
    fun r n h => (parseTree_suffix lines root level r n h).length_le,
    checkLineLevelLoop_enough, fun line m hm h => ?_⟩
  have := trimPrefix_marker_length line m hm h
  omega

/-! ## Directories are never empty -/

theorem mapSet_ne_nil (dirs : List (Str × TreeNode)) (k : Str) (v : TreeNode) :
    mapSet dirs k v ≠ [] := by
  cases dirs with
  | nil => simp [mapSet]
  | cons p rest =>
    obtain ⟨k', v'⟩ := p
    rw [mapSet]
    split <;> simp

theorem noEmptyDirsIn_mapSet (dirs : List (Str × TreeNode)) (k : Str) (v : TreeNode)
    (hd : NoEmptyDirsIn dirs) (hv : v.HasEntry) (hv' : NoEmptyDirs v) :
    NoEmptyDirsIn (mapSet dirs k v) := by
  induction dirs with
  | nil =>
    rw [mapSet, NoEmptyDirsIn, NoEmptyDirsIn]
    exact ⟨hv, hv', trivial⟩
  | cons p rest ih =>
    obtain ⟨k', v'⟩ := p
    rw [NoEmptyDirsIn] at hd
    rw [mapSet]
    split
    · rw [NoEmptyDirsIn]
      exact ⟨hv, hv', hd.2.2⟩
    · rw [NoEmptyDirsIn]
      exact ⟨hd.1, hd.2.1, ih hd.2.2⟩

theorem noEmptyDirs_iff (t : TreeNode) : NoEmptyDirs t ↔ NoEmptyDirsIn t.Directories := by
  obtain ⟨dirs, files, links⟩ := t
  rw [NoEmptyDirs]
  rfl

theorem noEmptyDirs_setDirectory (root : TreeNode) (k : Str) (v : TreeNode)
    (hr : NoEmptyDirs root) (hv : v.HasEntry) (hv' : NoEmptyDirs v) :
    NoEmptyDirs (setDirectory root k v) := by
  rw [noEmptyDirs_iff] at hr ⊢
  exact noEmptyDirsIn_mapSet _ k v hr hv hv'

theorem parseTree_entries :
    ∀ (n : Nat) (lines : List Str) (root : TreeNode) (level : Int) (r : List Str)
      (nd : TreeNode), lines.length ≤ n → parseTree lines root level = .returned r nd →
      (root.HasEntry → nd.HasEntry) ∧ (NoEmptyDirs root → NoEmptyDirs nd) ∧
      ∀ l rest, lines = l :: rest → lineKind l level ≠ .stop → nd.HasEntry := by
  intro n
  induction n with
  | zero =>
    intro lines root level r nd hlen h
    have h0 : lines = [] := List.length_eq_zero.1 (Nat.le_zero.1 hlen)
    subst h0
    rw [parseTree_nil] at h
    cases h
    exact ⟨id, id, fun l rest hl => by cases hl⟩
  | succ n ih =>
    intro lines root level r nd hlen h
    cases lines with
    | nil =>
      rw [parseTree_nil] at h
      cases h
      exact ⟨id, id, fun l rest hl => by cases hl⟩
    | cons l rest =>
      have hrest : rest.length ≤ n := by
        simp only [List.length_cons] at hlen; omega
      rw [parseTree_cons] at h
      cases hk : lineKind l level with
      | stop =>
        rw [hk] at h
        cases h
        refine ⟨id, id, fun l' rest' hl hne => ?_⟩
        cases hl
        exact absurd hk hne
      | noConnector => rw [hk] at h; cases h
      | badSymlink filename => rw [hk] at h; cases h
      | symlink new old =>
        rw [hk] at h
        obtain ⟨p1, p2, _⟩ := ih rest _ level r nd hrest h
        have he : (addSymlink root ⟨new, old⟩).HasEntry := Or.inr (Or.inr (by simp [addSymlink, TreeNode.Symlinks]))
        refine ⟨fun _ => p1 he, fun hr => p2 ?_, fun _ _ _ _ => p1 he⟩
        rw [noEmptyDirs_iff] at hr ⊢
        exact hr
      | entry filename =>
        rw [hk] at h
        simp only at h
        by_cases hl : lookahead rest level = true
        · simp only [hl, ↓reduceIte] at h
          cases hrec : parseTree rest TreeNode.empty (level + 1) with
          | returned lines' branch =>
            rw [hrec] at h
            simp only [Outcome.andThen] at h
            have hsuf := parseTree_suffix _ _ _ _ _ hrec
            obtain ⟨_, q2, q3⟩ := ih rest _ (level + 1) lines' branch hrest hrec
            have hbranch : branch.HasEntry := by
              cases rest with
              | nil => simp [lookahead] at hl
              | cons next more =>
                refine q3 next more rfl ?_
                intro hstop
                rw [lineKind_stop_iff] at hstop
                exact hstop ((hasLevel_iff next (level + 1)).1 hl)
            have hbranch' : NoEmptyDirs branch := q2 (by rw [noEmptyDirs_iff]; trivial)
            obtain ⟨p1, p2, _⟩ := ih lines' _ level r nd (le_trans hsuf.length_le hrest) h
            have he : (setDirectory root filename branch).HasEntry :=
              Or.inl (mapSet_ne_nil _ _ _)
            exact ⟨fun _ => p1 he,
              fun hr => p2 (noEmptyDirs_setDirectory root filename branch hr hbranch hbranch'),
              fun _ _ _ _ => p1 he⟩
          | panicked m => rw [hrec] at h; cases h
          | outOfFuel => rw [hrec] at h; cases h
        · simp only [hl, Bool.false_eq_true, ↓reduceIte] at h
          obtain ⟨p1, p2, _⟩ := ih rest _ level r nd hrest h
          have he : (addFile root filename).HasEntry := Or.inr (Or.inl (by simp [addFile, TreeNode.Files]))
          refine ⟨fun _ => p1 he, fun hr => p2 ?_, fun _ _ _ _ => p1 he⟩
          rw [noEmptyDirs_iff] at hr ⊢
          exact hr

/-- C19. No empty directories are ever produced: when `parseTree` returns,
every directory it has stored, at any depth, holds at least one file,
symlink or subdirectory; a node whose stored directories all hold an entry
before the call, such as the empty root, is such a node after it. -/
theorem parseTree_no_empty_directories (lines : List Str) (root : TreeNode) (level : Int)
    (r : List Str) (nd : TreeNode) (h : parseTree lines root level = .returned r nd)
    (hroot : NoEmptyDirs root) : NoEmptyDirs nd :=
  (parseTree_entries lines.length lines root level r nd (le_refl _) h).2.1 hroot

/-- Witness for C19: directory `a` holding the directory `b` holding `c`. -/
theorem parseTree_no_empty_directories_witness :
    NoEmptyDirs (.mk [("a".toList, .mk [("b".toList, .mk [] ["c".toList] [])] [] [])] [] []) :=
  parseTree_no_empty_directories
    ["├── a".toList, "│   └── b".toList, "│       └── c".toList] TreeNode.empty 0 []
    (.mk [("a".toList, .mk [("b".toList, .mk [] ["c".toList] [])] [] [])] [] [])
    (by rfl) (by rw [noEmptyDirs_iff]; trivial)


/-! ## What a call leaves in place -/

theorem keys_mapSet (dirs : List (Str × TreeNode)) (k : Str) (v : TreeNode) :
    dirs.map Prod.fst <+: (mapSet dirs k v).map Prod.fst := by
  induction dirs with
  | nil => exact List.nil_prefix
  | cons p rest ih =>
    obtain ⟨k', v'⟩ := p
    rw [mapSet]
    split
    · rename_i heq
      subst heq
      exact List.prefix_refl _
    · simp only [List.map_cons]
      exact (List.prefix_cons_inj _).2 ih

theorem mapGet_isSome_iff (dirs : List (Str × TreeNode)) (k : Str) :
    (mapGet dirs k).isSome = true ↔ k ∈ dirs.map Prod.fst := by
  induction dirs with
  | nil => simp [mapGet]
  | cons p rest ih =>
    obtain ⟨k', v'⟩ := p
    rw [mapGet]
    by_cases h : k' = k
    · simp [h]
    · simp only [h, ↓reduceIte, ih, List.map_cons, List.mem_cons]
      constructor
      · exact Or.inr
      · rintro (h' | h')
        · exact absurd h'.symm h
        · exact h'

theorem mapSet_of_isNone (dirs : List (Str × TreeNode)) (k : Str) (v : TreeNode)
    (h : (mapGet dirs k).isNone = true) : mapSet dirs k v = dirs ++ [(k, v)] := by
  apply mapSet_of_not_mem
  intro hmem
  rw [← mapGet_isSome_iff] at hmem
  cases hg : mapGet dirs k with
  | none => rw [hg] at hmem; cases hmem
  | some c => rw [hg] at h; cases h

theorem mapGet_append_of_some (dirs more : List (Str × TreeNode)) (k : Str) (c : TreeNode)
    (h : mapGet dirs k = some c) : mapGet (dirs ++ more) k = some c := by
  induction dirs with
  | nil => simp [mapGet] at h
  | cons p rest ih =>
    obtain ⟨k', v'⟩ := p
    rw [mapGet] at h
    rw [List.cons_append, mapGet]
    by_cases hk : k' = k
    · simpa [hk] using h
    · simp only [hk, ↓reduceIte] at h ⊢
      exact ih h

theorem parseTree_grows :
    ∀ (n : Nat) (lines : List Str) (root : TreeNode) (level : Int) (r : List Str)
      (nd : TreeNode), lines.length ≤ n → parseTree lines root level = .returned r nd →
      root.Files <+: nd.Files ∧ root.Symlinks <+: nd.Symlinks ∧
      root.Directories.map Prod.fst <+: nd.Directories.map Prod.fst ∧
      (freshDirectoryNames n lines root level = true →
        root.Directories <+: nd.Directories) := by
  intro n
  induction n with
  | zero =>
    intro lines root level r nd hlen h
    have h0 : lines = [] := List.length_eq_zero.1 (Nat.le_zero.1 hlen)
    subst h0
    rw [parseTree_nil] at h
    cases h
    exact ⟨List.prefix_refl _, List.prefix_refl _, List.prefix_refl _,
      fun _ => List.prefix_refl _⟩
  | succ n ih =>
    intro lines root level r nd hlen h
    cases lines with
    | nil =>
      rw [parseTree_nil] at h
      cases h
      exact ⟨List.prefix_refl _, List.prefix_refl _, List.prefix_refl _,
        fun _ => List.prefix_refl _⟩
    | cons l rest =>
      have hrest : rest.length ≤ n := by
        simp only [List.length_cons] at hlen; omega
      rw [parseTree_cons] at h
      cases hk : lineKind l level with
      | stop =>
        rw [hk] at h
        cases h
        exact ⟨List.prefix_refl _, List.prefix_refl _, List.prefix_refl _,
          fun _ => List.prefix_refl _⟩
      | noConnector => rw [hk] at h; cases h
      | badSymlink filename => rw [hk] at h; cases h
      | symlink new old =>
        rw [hk] at h
        obtain ⟨p1, p2, p3, p4⟩ := ih rest _ level r nd hrest h
        refine ⟨p1, (List.prefix_append _ _).trans p2, p3, fun hf => p4 ?_⟩
        rw [freshDirectoryNames, hk] at hf
        exact hf
      | entry filename =>
        rw [hk] at h
        simp only at h
        by_cases hl : lookahead rest level = true
        · simp only [hl, ↓reduceIte] at h
          cases hrec : parseTree rest TreeNode.empty (level + 1) with
          | returned lines' branch =>
            rw [hrec] at h
            simp only [Outcome.andThen] at h
            have hsuf := parseTree_suffix _ _ _ _ _ hrec
            obtain ⟨p1, p2, p3, p4⟩ :=
              ih lines' _ level r nd (le_trans hsuf.length_le hrest) h
            refine ⟨p1, p2, (keys_mapSet _ _ _).trans p3, fun hf => ?_⟩
            rw [freshDirectoryNames, hk] at hf
            simp only [hl, ↓reduceIte, hrec, Bool.and_eq_true] at hf
            obtain ⟨⟨_, hnone⟩, hcont⟩ := hf
            have hp := p4 hcont
            have hset : (setDirectory root filename branch).Directories
                = root.Directories ++ [(filename, branch)] :=
              mapSet_of_isNone _ _ _ hnone
            rw [hset] at hp
            exact (List.prefix_append _ _).trans hp
          | panicked m => rw [hrec] at h; cases h
          | outOfFuel => rw [hrec] at h; cases h
        · simp only [hl, Bool.false_eq_true, ↓reduceIte] at h
          obtain ⟨p1, p2, p3, p4⟩ := ih rest _ level r nd hrest h
          refine ⟨(List.prefix_append _ _).trans p1, p2, p3, fun hf => p4 ?_⟩
          rw [freshDirectoryNames, hk] at hf
          simp only [hl, Bool.false_eq_true, ↓reduceIte] at hf
          exact hf


/-- C12, as stated, fails: a directory entry whose name is already stored
replaces the stored child, before the call or during it. -/
theorem parseTree_overwrites_directory :
    mapGet (TreeNode.mk [("a".toList, .mk [] ["b".toList] [])] [] []).Directories "a".toList
        = some (.mk [] ["b".toList] []) ∧
      parseTree ["└── a".toList, "    └── c".toList]
          (.mk [("a".toList, .mk [] ["b".toList] [])] [] []) 0
        = .returned [] (.mk [("a".toList, .mk [] ["c".toList] [])] [] []) ∧
      mapGet (TreeNode.mk [("a".toList, .mk [] ["c".toList] [])] [] []).Directories "a".toList
        ≠ some (.mk [] ["b".toList] []) ∧
      parseTree ["├── a".toList, "│   └── b".toList] TreeNode.empty 0
        = .returned [] (.mk [("a".toList, .mk [] ["b".toList] [])] [] []) ∧
      parseTree ["├── a".toList, "│   └── b".toList, "└── a".toList, "    └── c".toList]
          TreeNode.empty 0
        = .returned [] (.mk [("a".toList, .mk [] ["c".toList] [])] [] []) := by
  refine ⟨by rfl, by rfl, ?_, by rfl, by rfl⟩
  have hg : mapGet (TreeNode.mk [("a".toList, .mk [] ["c".toList] [])] [] []).Directories
      "a".toList = some (.mk [] ["c".toList] []) := by rfl
  rw [hg]
  intro h
  injection h with h
  injection h with _ h2 _
  exact absurd h2 (by decide)

/-- C12, amended. Append-only nodes: when `parseTree` returns, the previous
`Files` is a prefix of the new `Files`, the previous `Symlinks` is a prefix
of the new `Symlinks`, and every name stored in `Directories` before the
call is still stored after it; when no directory entry parsed by the call
repeats a name stored in its directory, the previous `Directories` is a
prefix of the new one, so every child is still stored under its name with
its subtree unchanged. -/
theorem parseTree_append_only (lines : List Str) (root : TreeNode) (level : Int)
    (r : List Str) (nd : TreeNode) (h : parseTree lines root level = .returned r nd) :
    root.Files <+: nd.Files ∧ root.Symlinks <+: nd.Symlinks ∧
      (∀ k, (mapGet root.Directories k).isSome = true →
        (mapGet nd.Directories k).isSome = true) ∧
      (freshDirectoryNames lines.length lines root level = true →
        root.Directories <+: nd.Directories ∧
        ∀ k c, mapGet root.Directories k = some c → mapGet nd.Directories k = some c) := by
  obtain ⟨p1, p2, p3, p4⟩ := parseTree_grows lines.length lines root level r nd (le_refl _) h
  refine ⟨p1, p2, fun k hk => ?_, fun hf => ⟨p4 hf, fun k c hk => ?_⟩⟩
  · rw [mapGet_isSome_iff] at hk ⊢
    exact p3.subset hk
  · obtain ⟨more, hmore⟩ := p4 hf
    rw [← hmore]
    exact mapGet_append_of_some _ _ k c hk

/-- Witness for C12 amended: a node holding `a` and `x` receives the
directory `d` and the file `f`. -/
theorem parseTree_append_only_witness :
    (TreeNode.mk [("a".toList, .mk [] ["b".toList] [])] ["x".toList] []).Directories
      <+: (TreeNode.mk [("a".toList, .mk [] ["b".toList] []),
            ("d".toList, .mk [] ["e".toList] [])] ["x".toList, "f".toList] []).Directories :=
  ((parseTree_append_only ["├── d".toList, "│   └── e".toList, "└── f".toList]
    (.mk [("a".toList, .mk [] ["b".toList] [])] ["x".toList] []) 0 []
    (.mk [("a".toList, .mk [] ["b".toList] []), ("d".toList, .mk [] ["e".toList] [])]
      ["x".toList, "f".toList] [])
    (by rfl)).2.2.2 (by decide)).1


/-! ## Depth of the parsed tree -/

theorem depth_eq (t : TreeNode) : t.depth = depthOfDirs t.Directories := by
  obtain ⟨dirs, files, links⟩ := t
  rw [TreeNode.depth]
  rfl

theorem depthOfDirs_append (dirs more : List (Str × TreeNode)) :
    depthOfDirs (dirs ++ more) = max (depthOfDirs dirs) (depthOfDirs more) := by
  induction dirs with
  | nil => simp [depthOfDirs]
  | cons p rest ih =>
    obtain ⟨k, v⟩ := p
    rw [List.cons_append, depthOfDirs, depthOfDirs, ih]
    omega

theorem depthOfDirs_mapSet_le (dirs : List (Str × TreeNode)) (k : Str) (v : TreeNode) :
    depthOfDirs (mapSet dirs k v) ≤ max (depthOfDirs dirs) (v.depth + 1) := by
  induction dirs with
  | nil =>
    simp only [mapSet, depthOfDirs]
    omega
  | cons p rest ih =>
    obtain ⟨k', v'⟩ := p
    rw [mapSet]
    split
    · rw [depthOfDirs, depthOfDirs]
      omega
    · rw [depthOfDirs, depthOfDirs]
      omega

theorem depthOfDirs_single (k : Str) (v : TreeNode) : depthOfDirs [(k, v)] = v.depth + 1 := by
  simp only [depthOfDirs]
  omega

theorem maxIndent_cons (l : Str) (rest : List Str) :
    maxIndent (l :: rest) = max (indentOf l) (maxIndent rest) := rfl

theorem maxIndent_append (a b : List Str) :
    maxIndent (a ++ b) = max (maxIndent a) (maxIndent b) := by
  induction a with
  | nil => simp [maxIndent]
  | cons l rest ih =>
    rw [List.cons_append, maxIndent_cons, maxIndent_cons, ih]
    omega

theorem le_maxIndent (lines : List Str) (x : Str) (h : x ∈ lines) :
    indentOf x ≤ maxIndent lines := by
  induction lines with
  | nil => cases h
  | cons l rest ih =>
    rw [maxIndent_cons]
    rcases List.mem_cons.1 h with rfl | h
    · omega
    · have := ih h
      omega


theorem depth_addFile (root : TreeNode) (f : Str) : (addFile root f).depth = root.depth := by
  rw [depth_eq, depth_eq]
  rfl

theorem depth_addSymlink (root : TreeNode) (s : Symlink) :
    (addSymlink root s).depth = root.depth := by
  rw [depth_eq, depth_eq]
  rfl

theorem depth_setDirectory_le (root : TreeNode) (k : Str) (v : TreeNode) :
    (setDirectory root k v).depth ≤ max root.depth (v.depth + 1) := by
  rw [depth_eq, depth_eq]
  exact depthOfDirs_mapSet_le _ k v

theorem depth_setDirectory_fresh (root : TreeNode) (k : Str) (v : TreeNode)
    (h : (mapGet root.Directories k).isNone = true) :
    (setDirectory root k v).depth = max root.depth (v.depth + 1) := by
  rw [depth_eq, depth_eq]
  show depthOfDirs (mapSet root.Directories k v) = _
  rw [mapSet_of_isNone _ k v h, depthOfDirs_append, depthOfDirs_single]

theorem parseTree_depth_bound :
    ∀ (n : Nat) (lines : List Str) (root : TreeNode) (lv : Nat) (r : List Str)
      (nd : TreeNode), lines.length ≤ n → parseTree lines root (lv : Int) = .returned r nd →
      ∃ consumed, lines = consumed ++ r ∧ (∀ x ∈ consumed, lv ≤ indentOf x) ∧
        (∀ l rest, lines = l :: rest → lineKind l (lv : Int) ≠ .stop → consumed ≠ []) ∧
        nd.depth ≤ max root.depth (maxIndent consumed - lv) ∧
        (freshDirectoryNames n lines root (lv : Int) = true →
          nd.depth = max root.depth (maxIndent consumed - lv)) := by
  intro n
  induction n with
  | zero =>
    intro lines root lv r nd hlen h
    have h0 : lines = [] := List.length_eq_zero.1 (Nat.le_zero.1 hlen)
    subst h0
    rw [parseTree_nil] at h
    cases h
    exact ⟨[], rfl, fun x hx => (by cases hx), fun l rest hl => (by cases hl),
      by simp [maxIndent], fun _ => by simp [maxIndent]⟩
  | succ n ih =>
    intro lines root lv r nd hlen h
    cases lines with
    | nil =>
      rw [parseTree_nil] at h
      cases h
      exact ⟨[], rfl, fun x hx => (by cases hx), fun l rest hl => (by cases hl),
        by simp [maxIndent], fun _ => by simp [maxIndent]⟩
    | cons l rest =>
      have hrest : rest.length ≤ n := by
        simp only [List.length_cons] at hlen; omega
      rw [parseTree_cons] at h
      cases hk : lineKind l (lv : Int) with
      | stop =>
        rw [hk] at h
        cases h
        refine ⟨[], rfl, fun x hx => (by cases hx), fun l' rest' hl hne => ?_,
          by simp [maxIndent], fun _ => by simp [maxIndent]⟩
        cases hl
        exact absurd hk hne
      | noConnector => rw [hk] at h; cases h
      | badSymlink filename => rw [hk] at h; cases h
      | symlink new old =>
        rw [hk] at h
        have hlev : indentOf l = lv := by
          have := lineKind_ne_stop l (lv : Int) (by rw [hk]; exact fun e => LineKind.noConfusion e)
          exact_mod_cast this
        obtain ⟨c, hc, hge, _, hle, heq⟩ := ih rest _ lv r nd hrest h
        rw [depth_addSymlink] at hle heq
        refine ⟨l :: c, by rw [List.cons_append, ← hc], ?_, fun _ _ _ _ => by simp, ?_, ?_⟩
        · intro x hx
          rcases List.mem_cons.1 hx with rfl | hx
          · omega
          · exact hge x hx
        · rw [maxIndent_cons]; omega
        · intro hf
          rw [freshDirectoryNames, hk] at hf
          have := heq hf
          rw [maxIndent_cons]; omega
      | entry filename =>
        rw [hk] at h
        simp only at h
        have hlev : indentOf l = lv := by
          have := lineKind_ne_stop l (lv : Int) (by rw [hk]; exact fun e => LineKind.noConfusion e)
          exact_mod_cast this
        by_cases hl : lookahead rest (lv : Int) = true
        · simp only [hl, ↓reduceIte] at h
          have hcast : ((lv : Int) + 1) = ((lv + 1 : Nat) : Int) := by push_cast; rfl
          cases hrec : parseTree rest TreeNode.empty ((lv : Int) + 1) with
          | returned lines' branch =>
            rw [hrec] at h
            simp only [Outcome.andThen] at h
            have hsuf := parseTree_suffix _ _ _ _ _ hrec
            have hrec' := hrec
            rw [hcast] at hrec'
            obtain ⟨c1, hc1, hge1, hne1, hle1, heq1⟩ :=
              ih rest _ (lv + 1) lines' branch hrest hrec'
            have hc1ne : c1 ≠ [] := by
              cases rest with
              | nil => simp [lookahead] at hl
              | cons next more =>
                refine hne1 next more rfl ?_
                intro hstop
                rw [lineKind_stop_iff] at hstop
                apply hstop
                rw [← hcast]
                exact (hasLevel_iff next ((lv : Int) + 1)).1 hl
            have hm1 : lv + 1 ≤ maxIndent c1 := by
              cases c1 with
              | nil => exact absurd rfl hc1ne
              | cons x xs =>
                exact le_trans (hge1 x (List.mem_cons_self _ _))
                  (le_maxIndent _ x (List.mem_cons_self _ _))
            have hempty : TreeNode.empty.depth = 0 := by
              rw [depth_eq]; rfl
            rw [hempty] at hle1 heq1
            obtain ⟨c2, hc2, hge2, _, hle2, heq2⟩ :=
              ih lines' _ lv r nd (le_trans hsuf.length_le hrest) h
            have hset := depth_setDirectory_le root filename branch
            refine ⟨l :: (c1 ++ c2), ?_, ?_, fun _ _ _ _ => by simp, ?_, ?_⟩
            · rw [List.cons_append, List.append_assoc, ← hc2, ← hc1]
            · intro x hx
              rcases List.mem_cons.1 hx with rfl | hx
              · omega
              · rcases List.mem_append.1 hx with hx | hx
                · have := hge1 x hx
                  omega
                · exact hge2 x hx
            · rw [maxIndent_cons, maxIndent_append]; omega
            · intro hf
              rw [freshDirectoryNames, hk] at hf
              simp only [hl, ↓reduceIte, hrec, Bool.and_eq_true] at hf
              obtain ⟨⟨hf1, hnone⟩, hf2⟩ := hf
              rw [hcast] at hf1
              have e1 := heq1 hf1
              have e2 := heq2 hf2
              have e3 := depth_setDirectory_fresh root filename branch hnone
              rw [maxIndent_cons, maxIndent_append]; omega
          | panicked m => rw [hrec] at h; cases h
          | outOfFuel => rw [hrec] at h; cases h
        · simp only [hl, Bool.false_eq_true, ↓reduceIte] at h
          obtain ⟨c, hc, hge, _, hle, heq⟩ := ih rest _ lv r nd hrest h
          rw [depth_addFile] at hle heq
          refine ⟨l :: c, by rw [List.cons_append, ← hc], ?_, fun _ _ _ _ => by simp, ?_, ?_⟩
          · intro x hx
            rcases List.mem_cons.1 hx with rfl | hx
            · omega
            · exact hge x hx
          · rw [maxIndent_cons]; omega
          · intro hf
            rw [freshDirectoryNames, hk] at hf
            simp only [hl, Bool.false_eq_true, ↓reduceIte] at hf
            have := heq hf
            rw [maxIndent_cons]; omega


/-- C11, as stated, fails: the second directory `a` replaces the first, whose
subtree held the deepest line, so the tree has depth 1 while a line has two
indentation markers. -/
theorem parseTree_depth_below_indentation :
    parseTree ["├── a".toList, "│   └── b".toList, "│       └── c".toList,
          "└── a".toList, "    └── d".toList] TreeNode.empty 0
        = .returned [] (.mk [("a".toList, .mk [] ["d".toList] [])] [] []) ∧
      (TreeNode.mk [("a".toList, .mk [] ["d".toList] [])] [] []).depth = 1 ∧
      maxIndent ["├── a".toList, "│   └── b".toList, "│       └── c".toList,
          "└── a".toList, "    └── d".toList] = 2 :=
  ⟨by rfl, by decide, by decide⟩

/-- C11, amended. Tree depth and indentation depth: when `parseTree`, called
at level 0 on an empty root, consumes a listing completely, the depth of the
resulting tree is at most the largest number of leading indentation markers
of any input line, and equals it when no directory entry repeats a name
stored in its directory. -/
theorem parseTree_depth (lines : List Str) (nd : TreeNode)
    (h : parseTree lines TreeNode.empty 0 = .returned [] nd) :
    nd.depth ≤ maxIndent lines ∧
      (freshDirectoryNames lines.length lines TreeNode.empty 0 = true →
        nd.depth = maxIndent lines) := by
  obtain ⟨c, hc, _, _, hle, heq⟩ :=
    parseTree_depth_bound lines.length lines TreeNode.empty 0 [] nd (le_refl _) h
  rw [List.append_nil] at hc
  subst hc
  have hempty : TreeNode.empty.depth = 0 := by
    rw [depth_eq]; rfl
  rw [hempty] at hle heq
  refine ⟨by omega, fun hf => ?_⟩
  have := heq hf
  omega

/-- Witness for C11 amended: directory `a` holding directory `b` holding
`c`, then the file `d`; depth and indentation depth are both 2. -/
theorem parseTree_depth_witness :
    (TreeNode.mk [("a".toList, .mk [("b".toList, .mk [] ["c".toList] [])] [] [])]
        ["d".toList] []).depth
      = maxIndent ["├── a".toList, "│   └── b".toList, "│       └── c".toList,
          "└── d".toList] :=
  (parseTree_depth ["├── a".toList, "│   └── b".toList, "│       └── c".toList,
      "└── d".toList]
    (.mk [("a".toList, .mk [("b".toList, .mk [] ["c".toList] [])] [] [])] ["d".toList] [])
    (by rfl)).2 (by decide)


/-! ## Materialization -/

theorem runOps_append {σ : Type} (os : Os σ) (a b : List FsOp) (s : σ) :
    runOps os (a ++ b) s =
      match runOps os a s with
      | (s1, some err) => (s1, some err)
      | (s1, none) => runOps os b s1 := by
  induction a generalizing s with
  | nil => rfl
  | cons op rest ih =>
    rw [List.cons_append, runOps, runOps]
    rcases h : os.exec op s with ⟨s1, _ | err⟩
    · simp only
      exact ih s1
    · rfl

theorem createFiles_eq {σ : Type} (os : Os σ) (files : List Str) (base : Str) (s : σ) :
    createFiles os files base s
      = runOps os (files.map (fun f => FsOp.create (joinPath base f))) s := by
  induction files generalizing s with
  | nil => rfl
  | cons f rest ih =>
    rw [createFiles, List.map_cons, runOps, Os.exec]
    rcases h : os.create (joinPath base f) s with ⟨s1, _ | err⟩
    · simp only
      exact ih s1
    · rfl

theorem createSymlinks_eq {σ : Type} (os : Os σ) (links : List Symlink) (base : Str) (s : σ) :
    createSymlinks os links base s
      = runOps os
          (links.map (fun l => FsOp.symlink (joinPath base l.Old) (joinPath base l.New))) s := by
  induction links generalizing s with
  | nil => rfl
  | cons l rest ih =>
    rw [createSymlinks, List.map_cons, runOps, Os.exec]
    rcases h : os.symlink (joinPath base l.Old) (joinPath base l.New) s with ⟨s1, _ | err⟩
    · simp only
      exact ih s1
    · rfl

mutual
theorem createStructure_eq {σ : Type} (os : Os σ) :
    ∀ (t : TreeNode) (base : Str) (s : σ),
      createStructure os t base s = runOps os (operations t base) s
  | .mk dirs files links, base, s => by
    rw [createStructure, operations, List.append_assoc, runOps_append,
      createDirectories_eq os dirs base s]
    rcases h : runOps os (operationsDirs dirs base) s with ⟨s1, _ | err⟩
    · simp only
      rw [runOps_append, createFiles_eq]
      rcases h2 : runOps os (files.map (fun f => FsOp.create (joinPath base f))) s1
        with ⟨s2, _ | err⟩
      · simp only
        rw [createSymlinks_eq]
      · rfl
    · rfl
theorem createDirectories_eq {σ : Type} (os : Os σ) :
    ∀ (dirs : List (Str × TreeNode)) (base : Str) (s : σ),
      createDirectories os dirs base s = runOps os (operationsDirs dirs base) s
  | [], base, s => by
    rw [createDirectories, operationsDirs]
    rfl
  | (name, child) :: rest, base, s => by
    rw [createDirectories, operationsDirs, runOps, Os.exec]
    rcases h : os.mkdirAll (joinPath base name) s with ⟨s1, _ | err⟩
    · simp only
      rw [runOps_append, createStructure_eq os child (joinPath base name) s1]
      rcases h2 : runOps os (operations child (joinPath base name)) s1 with ⟨s2, _ | err⟩
      · simp only
        exact createDirectories_eq os rest base s2
      · rfl
    · rfl
end

theorem runOps_recorder (ops : List FsOp) (s : List FsOp) :
    runOps recorder ops s = (s ++ ops, none) := by
  induction ops generalizing s with
  | nil => simp [runOps]
  | cons op rest ih =>
    have h : recorder.exec op s = (s ++ [op], none) := by
      cases op <;> rfl
    rw [runOps, h]
    simp only
    rw [ih]
    simp

/-- C13. Materialization fidelity: `createStructure` makes the calls of
section 4.4, in their order and up to the first error: for each directory
one directory creation at `base/<dir>` and then the calls for its child
under that path, for each file one file creation at `base/<file>`, for each
symlink one symlink creation at `base/<New>` with the target string
`base/<Old>`; on a filesystem where nothing fails these are exactly the
calls it makes, and for a directory `d` holding the file `a.txt` and the
symlink `b -> a.txt` they are a directory at `base/d`, a file at
`base/d/a.txt` and a link at `base/d/b` with the target `base/d/a.txt`. -/
theorem createStructure_fidelity (t : TreeNode) (base : Str) :
    (∀ (σ : Type) (os : Os σ) (s : σ),
        createStructure os t base s = runOps os (operations t base) s) ∧
      createStructure recorder t base [] = (operations t base, none) ∧
      ∀ d : Str,
        operations (.mk [(d, .mk [] ["a.txt".toList] [⟨"b".toList, "a.txt".toList⟩])] [] [])
            base
          = [FsOp.mkdirAll (base ++ "/".toList ++ d),
              FsOp.create (base ++ "/".toList ++ d ++ "/a.txt".toList),
              FsOp.symlink (base ++ "/".toList ++ d ++ "/a.txt".toList)
                (base ++ "/".toList ++ d ++ "/b".toList)] := by
  refine ⟨fun σ os s => createStructure_eq os t base s, ?_, fun d => ?_⟩
  · rw [createStructure_eq, runOps_recorder]
    rfl
  · simp [operations, operationsDirs, joinPath]



/-! ## What one entry line adds to the node -/

theorem parseTree_head_stop (lines : List Str) (root : TreeNode) (level : Int)
    (h : ∀ next more, lines = next :: more → (checkLineLevel next level).2 = false) :
    parseTree lines root level = .returned lines root := by
  cases lines with
  | nil => rfl
  | cons next more =>
    apply parseTree_stop
    rw [lineKind_stop_iff]
    intro heq
    have := h next more rfl
    rw [(hasLevel_iff next level).2 heq] at this
    cases this

/-- C8. Symlink extraction: a line that classifies at the level and whose
text after the connector is `a ++ " -> " ++ b`, the separator standing at
exactly one position, makes `parseTree` append the one symlink `New = a`,
`Old = b` to the node's `Symlinks` and add nothing to `Files` or
`Directories`: alone, or followed by a line that does not belong to the
level, the call returns the node with exactly that symlink added; whatever
follows, the symlink stands right behind the symlinks the node held, and
the call goes on with the following lines on that node. -/
theorem parseTree_symlink_extraction (line : Str) (lines : List Str) (root : TreeNode)
    (level : Int) (a b : Str)
    (hlevel : (checkLineLevel line level).2 = true)
    (hname : entryName (checkLineLevel line level).1 = some (a ++ arrow ++ b))
    (huniq : ∀ i, OccursAt (a ++ arrow ++ b) arrow i → i = a.length) :
    parseTree [line] root level
        = .returned [] (.mk root.Directories root.Files (root.Symlinks ++ [⟨a, b⟩])) ∧
      ((∀ next more, lines = next :: more → (checkLineLevel next level).2 = false) →
        parseTree (line :: lines) root level
          = .returned lines (.mk root.Directories root.Files (root.Symlinks ++ [⟨a, b⟩]))) ∧
      (∀ r nd, parseTree (line :: lines) root level = .returned r nd →
        (root.Symlinks ++ [⟨a, b⟩]) <+: nd.Symlinks ∧ root.Files <+: nd.Files ∧
        ∀ k, (mapGet root.Directories k).isSome = true →
          (mapGet nd.Directories k).isSome = true) ∧
      parseTree (line :: lines) root level
        = parseTree lines (.mk root.Directories root.Files (root.Symlinks ++ [⟨a, b⟩]))
            level := by
  rw [stripped_eq] at hname
  have hocc : OccursAt (a ++ arrow ++ b) arrow a.length := by
    simp [OccursAt, List.append_assoc, hasPrefix_append]
  have hk : lineKind line level = .symlink a b :=
    lineKind_symlink line level _ a b hlevel hname
      ((contains_iff _).2 ⟨_, hocc⟩) (split_unique a b huniq)
  have hstep : ∀ ls, parseTree (line :: ls) root level
      = parseTree ls (.mk root.Directories root.Files (root.Symlinks ++ [⟨a, b⟩])) level :=
    fun ls => parseTree_symlink line ls root level a b hk
  refine ⟨by rw [hstep]; rfl, fun hn => ?_, fun r nd h => ?_, hstep lines⟩
  · rw [hstep, parseTree_head_stop lines _ level hn]
  · rw [hstep] at h
    obtain ⟨p1, p2, p3, _⟩ := parseTree_grows lines.length lines _ level r nd (le_refl _) h
    refine ⟨p2, p1, fun k hk' => ?_⟩
    rw [mapGet_isSome_iff] at hk' ⊢
    exact p3.subset hk'

/-- Witness for C8: the line `l -> t` on a node that holds the file `x`. -/
theorem parseTree_symlink_extraction_witness :
    parseTree ["├── l -> t".toList] (.mk [] ["x".toList] []) 0
      = .returned [] (.mk [] ["x".toList] [⟨"l".toList, "t".toList⟩]) :=
  (parseTree_symlink_extraction "├── l -> t".toList [] (.mk [] ["x".toList] []) 0
    "l".toList "t".toList (by decide) (by decide)
    (by
      intro i hi
      have hl := occursAt_length _ i hi
      have h6 : ("l".toList ++ arrow ++ "t".toList).length = 6 := rfl
      rw [h6] at hl
      have hi2 : i = 0 ∨ i = 1 ∨ i = 2 := by omega
      rcases hi2 with rfl | rfl | rfl
      · exact absurd hi (by decide)
      · rfl
      · exact absurd hi (by decide))).1

/-- C10. Leaf classification: a non-symlink entry line at level `d` that is
the last line, or whose next line does not classify at level `d+1`, makes
`parseTree` append its name to the node's `Files` and add no key to
`Directories`: as the last line, or followed by a line that belongs neither
to level `d+1` nor to level `d`, the call returns the node with exactly that
name added to `Files`; whatever follows, the name stands right behind the
files the node held and the call goes on with the following lines on that
node; and a call on a single last line never changes `Directories`. -/
theorem parseTree_leaf (line : Str) (rest : List Str) (root : TreeNode) (d : Int)
    (filename : Str) (hlevel : (checkLineLevel line d).2 = true)
    (hname : entryName (checkLineLevel line d).1 = some filename)
    (hc : contains filename arrow = false)
    (hnext : ∀ next more, rest = next :: more → (checkLineLevel next (d + 1)).2 = false) :
    parseTree [line] root d
        = .returned [] (.mk root.Directories (root.Files ++ [filename]) root.Symlinks) ∧
      ((∀ next more, rest = next :: more → (checkLineLevel next d).2 = false) →
        parseTree (line :: rest) root d
          = .returned rest (.mk root.Directories (root.Files ++ [filename]) root.Symlinks)) ∧
      (∀ r nd, parseTree (line :: rest) root d = .returned r nd →
        (root.Files ++ [filename]) <+: nd.Files ∧ root.Symlinks <+: nd.Symlinks) ∧
      parseTree (line :: rest) root d
        = parseTree rest (.mk root.Directories (root.Files ++ [filename]) root.Symlinks) d ∧
      ∀ (last : Str) (root' : TreeNode) (d' : Int) (r : List Str) (n : TreeNode),
        parseTree [last] root' d' = .returned r n → n.Directories = root'.Directories := by
  rw [stripped_eq] at hname
  have hk : lineKind line d = .entry filename := lineKind_entry line d filename hlevel hname hc
  have hla : lookahead rest d = false := by
    cases rest with
    | nil => rfl
    | cons next more => exact hnext next more rfl
  have hstep : parseTree (line :: rest) root d
      = parseTree rest (.mk root.Directories (root.Files ++ [filename]) root.Symlinks) d :=
    parseTree_file line rest root d filename hk hla
  have hlast : parseTree [line] root d
      = .returned [] (.mk root.Directories (root.Files ++ [filename]) root.Symlinks) := by
    rw [parseTree_file line [] root d filename hk rfl]
    rfl
  refine ⟨hlast, fun hn => ?_, fun r nd h => ?_, hstep, parseTree_single_directories⟩
  · rw [hstep, parseTree_head_stop rest _ d hn]
  · rw [hstep] at h
    obtain ⟨p1, p2, _, _⟩ := parseTree_grows rest.length rest _ d r nd (le_refl _) h
    exact ⟨p1, p2⟩

/-- Witness for C10: the file `a` at level 1, followed by a line of level
0, on a node that holds the directory `s` and the file `x`. -/
theorem parseTree_leaf_witness :
    parseTree ["│   ├── a".toList, "└── b".toList]
        (.mk [("s".toList, .mk [] ["q".toList] [])] ["x".toList] []) 1
      = .returned ["└── b".toList]
          (.mk [("s".toList, .mk [] ["q".toList] [])] ["x".toList, "a".toList] []) :=
  (parseTree_leaf "│   ├── a".toList ["└── b".toList]
    (.mk [("s".toList, .mk [] ["q".toList] [])] ["x".toList] []) 1 "a".toList
    (by decide) (by decide) (by decide)
    (by intro next more h; cases h; decide)).2.1
    (by intro next more h; cases h; decide)


/-! ## Materializing into a filesystem that holds the paths -/

theorem runOps_all_ok {σ : Type} (os : Os σ) (ops : List FsOp) (u : σ)
    (h : ∀ op ∈ ops, os.exec op u = (u, none)) : runOps os ops u = (u, none) := by
  induction ops with
  | nil => rfl
  | cons op rest ih =>
    rw [runOps, h op (List.mem_cons_self _ _)]
    exact ih (fun op' hop' => h op' (List.mem_cons_of_mem _ hop'))

theorem runOps_first_error {σ : Type} (os : Os σ) (pre post : List FsOp) (op : FsOp)
    (u : σ) (msg : Str) (hpre : ∀ op' ∈ pre, os.exec op' u = (u, none))
    (hop : os.exec op u = (u, some msg)) :
    runOps os (pre ++ op :: post) u = (u, some msg) := by
  rw [runOps_append, runOps_all_ok os pre u hpre]
  simp only
  rw [runOps, hop]

theorem any_isSymlink_split (ops : List FsOp) (h : ops.any FsOp.isSymlink = true) :
    ∃ pre oldname newname post, ops = pre ++ FsOp.symlink oldname newname :: post ∧
      pre.any FsOp.isSymlink = false := by
  induction ops with
  | nil => cases h
  | cons op rest ih =>
    cases op with
    | symlink oldname newname => exact ⟨[], oldname, newname, rest, rfl, rfl⟩
    | mkdirAll path =>
      obtain ⟨pre, o, n, post, heq, hpre⟩ := ih (by simpa [FsOp.isSymlink] using h)
      exact ⟨FsOp.mkdirAll path :: pre, o, n, post, by rw [heq]; rfl,
        by simpa [FsOp.isSymlink] using hpre⟩
    | create path =>
      obtain ⟨pre, o, n, post, heq, hpre⟩ := ih (by simpa [FsOp.isSymlink] using h)
      exact ⟨FsOp.create path :: pre, o, n, post, by rw [heq]; rfl,
        by simpa [FsOp.isSymlink] using hpre⟩

theorem exec_ok_of_answers {σ : Type} (os : Os σ) (ops : List FsOp) (u : σ)
    (hdir : ∀ path, FsOp.mkdirAll path ∈ ops → os.mkdirAll path u = (u, none))
    (hfile : ∀ path, FsOp.create path ∈ ops → os.create path u = (u, none))
    (op : FsOp) (hop : op ∈ ops) (hs : op.isSymlink = false) :
    os.exec op u = (u, none) := by
  cases op with
  | mkdirAll path => simp only [Os.exec, hdir path hop]
  | create path => simp only [Os.exec, hfile path hop]
  | symlink oldname newname => cases hs

/-- C14, as stated, fails: materializing a tree with the single file `a.txt`
into a base path that already holds `a.txt`, where `Create` truncates the
file and returns `nil`, returns no error. -/
theorem createStructure_file_collision_accepted :
    alreadyThere.create "output/a.txt".toList () = ((), none) ∧
      createStructure alreadyThere (.mk [] ["a.txt".toList] []) "output".toList ()
        = ((), none) :=
  ⟨rfl, by rfl⟩

/-- C14, amended. Collision policy: `createStructure` checks for no existing
path itself and passes on what package `os` answers.  In a filesystem where
`MkdirAll` returns `nil` for the directories of the tree, as it does for a
directory that already exists, and `Create` returns `nil` for its files, as
it does for a file that already exists, the call fails on no directory and
on no file; where `Symlink` returns an error for its symlinks, as it does
for a path that already exists, the call fails at the first symlink, with
that error behind `error creating symlink from <new> to <old>: `; so a
second materialization returns an error exactly when the tree asks for a
symlink. -/
theorem createStructure_twice {σ : Type} (os : Os σ) (t : TreeNode) (base : Str) (u : σ)
    (hdir : ∀ path, FsOp.mkdirAll path ∈ operations t base → os.mkdirAll path u = (u, none))
    (hfile : ∀ path, FsOp.create path ∈ operations t base → os.create path u = (u, none))
    (hlink : ∀ oldname newname, FsOp.symlink oldname newname ∈ operations t base →
      ∃ err, os.symlink oldname newname u = (u, some err)) :
    ((operations t base).any FsOp.isSymlink = false →
        createStructure os t base u = (u, none)) ∧
      (∀ pre oldname newname post,
        operations t base = pre ++ FsOp.symlink oldname newname :: post →
        pre.any FsOp.isSymlink = false →
        ∃ err, os.symlink oldname newname u = (u, some err) ∧
          createStructure os t base u
            = (u, some ("error creating symlink from ".toList ++ newname
                ++ " to ".toList ++ oldname ++ ": ".toList ++ err))) ∧
      ((operations t base).any FsOp.isSymlink = true →
        ∃ msg, createStructure os t base u = (u, some msg)) := by
  have hok := exec_ok_of_answers os (operations t base) u hdir hfile
  have hfirst : ∀ pre oldname newname post,
      operations t base = pre ++ FsOp.symlink oldname newname :: post →
      pre.any FsOp.isSymlink = false →
      ∃ err, os.symlink oldname newname u = (u, some err) ∧
        createStructure os t base u
          = (u, some ("error creating symlink from ".toList ++ newname
              ++ " to ".toList ++ oldname ++ ": ".toList ++ err)) := by
    intro pre o n post heq hpre
    obtain ⟨err, herr⟩ := hlink o n (by rw [heq]; simp)
    refine ⟨err, herr, ?_⟩
    rw [createStructure_eq, heq]
    apply runOps_first_error
    · intro op' hop'
      apply hok op' (by rw [heq]; exact List.mem_append_left _ hop')
      have := List.any_eq_false.1 hpre op' hop'
      simpa using this
    · simp only [Os.exec, herr]
  refine ⟨fun hs => ?_, hfirst, fun hs => ?_⟩
  · rw [createStructure_eq]
    apply runOps_all_ok
    intro op hop
    apply hok op hop
    have := List.any_eq_false.1 hs op hop
    simpa using this
  · obtain ⟨pre, o, n, post, heq, hpre⟩ := any_isSymlink_split _ hs
    obtain ⟨err, _, hres⟩ := hfirst pre o n post heq hpre
    exact ⟨_, hres⟩

/-- Witness for C14 amended: the directory `d` with `a.txt` and
`b -> a.txt`, materialized where all three exist, fails at the symlink. -/
theorem createStructure_twice_witness :
    ∃ err, alreadyThere.symlink "output/d/a.txt".toList "output/d/b".toList ()
        = ((), some err) ∧
      createStructure alreadyThere
          (.mk [("d".toList, .mk [] ["a.txt".toList] [⟨"b".toList, "a.txt".toList⟩])] [] [])
          "output".toList ()
        = ((), some ("error creating symlink from ".toList ++ "output/d/b".toList
            ++ " to ".toList ++ "output/d/a.txt".toList ++ ": ".toList ++ err)) :=
  (createStructure_twice alreadyThere
    (.mk [("d".toList, .mk [] ["a.txt".toList] [⟨"b".toList, "a.txt".toList⟩])] [] [])
    "output".toList () (fun _ _ => rfl) (fun _ _ => rfl) (fun _ _ _ => ⟨_, rfl⟩)).2.1
    [FsOp.mkdirAll "output/d".toList, FsOp.create "output/d/a.txt".toList]
    "output/d/a.txt".toList "output/d/b".toList [] (by decide) (by decide)

end TreeBuilder
